import Mathlib

/-!
Verification of the infinity-sampler reservoir library (src/buf.rs, src/iter.rs,
src/rate.rs, src/item.rs) against its natural-language specification.

Modelling conventions:
* Rust `usize`/`u32` arithmetic is modelled by `Nat`.  All values reached by the
  claims stay far below the machine bounds, except where a claim is exactly about
  an arithmetic failure; there the failure (usize subtraction underflow,
  division by zero) is modelled explicitly by an `Option` result.
* The const generic `N` of the Rust types becomes an ordinary `Nat` parameter.
* `Item<T>` (a `MaybeUninit` plus an optional `NonZeroUsize` tag) is modelled as
  `Option (Nat × α)`: `none` is the empty item, `some (tag, value)` the
  initialized one.
* Iterators that mutate `self` become functions `state → value × state`
  (or `state → Option (value × state)` for the finite reverse iterator).
* Loops in the Rust sources are modelled with an explicit fuel argument large
  enough (proved or evident) for every input that the claims touch; this keeps
  every definition structurally recursive and kernel-computable.
-/

namespace InfinitySampler

set_option maxRecDepth 400000

/-- Fuel-driven bit length: number of significant bits of `n`
(`usize::BITS - n.leading_zeros()` in Rust terms).  `bitLenGo fuel n` needs
`fuel ≥ log2 n + 1`, which `fuel = n` provides for every `n ≥ 1`. -/
def bitLenGo : Nat → Nat → Nat
  | 0, _ => 0
  | fuel + 1, n => if n = 0 then 0 else 1 + bitLenGo fuel (n / 2)

/-- Bit length (number of significant binary digits) of a natural number. -/
def bitLen (n : Nat) : Nat := bitLenGo n n

/-- Fuel-driven count of trailing zero bits, `usize::trailing_zeros` in Rust:
`trailing_zeros 0 = 64` on a 64-bit target. -/
def trailingZerosGo : Nat → Nat → Nat
  | 0, _ => 64
  | fuel + 1, n => if n = 0 then 64 else if n % 2 = 1 then 0 else 1 + trailingZerosGo fuel (n / 2)

/-- `usize::trailing_zeros`, with the 64-bit convention for `0`. -/
def trailingZeros (n : Nat) : Nat := trailingZerosGo (n + 1) n

/-- `usize::is_power_of_two` from Rust: `count_ones() == 1`; equivalently
`n ≠ 0 && n & (n-1) == 0`.  Note that `1` *is* a power of two for Rust. -/
def isPowerOfTwo (n : Nat) : Bool := n != 0 && (n &&& (n - 1)) == 0

/-! ## src/iter.rs — the forward and reverse slot-index state machines -/

/-- State of `InfinitySamplerIndexer<N>` (src/iter.rs): the forward slot-index
generator.  Field for field the Rust struct. -/
structure InfinitySamplerIndexer where
  iterator_pos : Nat
  idx : Nat
  left_offset : Nat
  step : Nat
deriving DecidableEq, Repr

/-- `InfinitySamplerIndexer::new` (the `assert!(N.is_power_of_two())` is modelled
separately by `isPowerOfTwo`, see `RawReservoir.newOk`). -/
def InfinitySamplerIndexer.new : InfinitySamplerIndexer :=
  { iterator_pos := 0, idx := 1, left_offset := 1, step := 2 }

/-- `<InfinitySamplerIndexer<N> as Iterator>::next` (src/iter.rs:118-150).
The Rust iterator never returns `None`, so the result is a plain pair of the
produced index and the successor state. -/
def InfinitySamplerIndexer.next (N : Nat) (s : InfinitySamplerIndexer) :
    Nat × InfinitySamplerIndexer :=
  let idx := s.iterator_pos
  let s := { s with iterator_pos := s.iterator_pos + 1 }
  if idx < N then (idx, s)
  else
    let v := s.idx
    if s.idx = N - 1 then
      if s.left_offset = N - 1 then
        (v, { s with left_offset := 1, step := 2, idx := 1 })
      else
        (v, { s with left_offset := s.left_offset + 1, step := s.step * 2,
                     idx := s.left_offset + 1 })
    else if N ≤ s.idx + s.step then
      (v, { s with left_offset := s.left_offset + 1, idx := s.left_offset + 1 })
    else
      (v, { s with idx := s.idx + s.step })

/-- State of `ReverseInfinitySamplerIndexer<N>` (src/iter.rs). -/
structure ReverseInfinitySamplerIndexer where
  iterator_pos : Nat
  idx : Nat
  left_offset : Nat
  step : Nat
deriving DecidableEq, Repr

/-- `InfinitySamplerIndexer::reverse` (src/iter.rs:99-106): a verbatim copy of
all four fields into the reverse-direction struct. -/
def InfinitySamplerIndexer.reverse (s : InfinitySamplerIndexer) :
    ReverseInfinitySamplerIndexer :=
  { iterator_pos := s.iterator_pos, idx := s.idx,
    left_offset := s.left_offset, step := s.step }

/-- `<ReverseInfinitySamplerIndexer<N> as Iterator>::next` (src/iter.rs:184-214).
This iterator ends (returns `none`) once the position reaches 0.
`self.left_offset + N - self.step` is usize arithmetic; in every reachable state
`left_offset + N ≥ step`, and Nat truncated subtraction coincides with it there. -/
def ReverseInfinitySamplerIndexer.next (N : Nat) (s : ReverseInfinitySamplerIndexer) :
    Option (Nat × ReverseInfinitySamplerIndexer) :=
  if s.iterator_pos = 0 then none
  else
    let s := { s with iterator_pos := s.iterator_pos - 1 }
    if s.iterator_pos < N then some (s.iterator_pos, s)
    else if s.idx = 1 then
      some (N - 1, { s with left_offset := N - 1, step := N, idx := N - 1 })
    else if s.idx = s.left_offset then
      if s.left_offset = s.step / 2 then
        let st := s.step / 2
        let lo := s.left_offset - 1
        some (lo + N - st, { s with step := st, left_offset := lo, idx := lo + N - st })
      else
        let lo := s.left_offset - 1
        some (lo + N - s.step, { s with left_offset := lo, idx := lo + N - s.step })
    else
      some (s.idx - s.step, { s with idx := s.idx - s.step })

/-- Driving the forward indexer `k` steps from a fresh state: the state after
`k` steps together with the list of produced slot indices `s_0 … s_{k-1}`. -/
def iterateForward (N : Nat) : Nat → InfinitySamplerIndexer × List Nat
  | 0 => (InfinitySamplerIndexer.new, [])
  | k + 1 =>
    let r := iterateForward N k
    let q := r.1.next N
    (q.2, r.2 ++ [q.1])

/-- Driving the reverse indexer at most `fuel` steps, collecting the produced
indices and the final state.  (The reverse iterator consumes exactly one unit
of `iterator_pos` per produced value, so `fuel = iterator_pos` exhausts it.) -/
def revRun (N : Nat) : Nat → ReverseInfinitySamplerIndexer →
    List Nat × ReverseInfinitySamplerIndexer
  | 0, s => ([], s)
  | fuel + 1, s =>
    match s.next N with
    | none => ([], s)
    | some (v, s') =>
      let r := revRun N fuel s'
      (v :: r.1, r.2)

/-! ## src/rate.rs — the stateful acceptance gate -/

/-- `SamplingRate` (src/rate.rs): a divisor together with an internal counter.
Rust stores `u32`; the counter stays below the divisor and the divisor is only
ever doubled, so `Nat` models every state the claims reach. -/
structure SamplingRate where
  divisor : Nat
  counter : Nat
deriving DecidableEq, Repr

/-- `SamplingRate::new` (the `assert!(divisor > 0)` holds at the only call site,
`SamplingReservoir::new` with divisor 1). -/
def SamplingRate.new (divisor : Nat) : SamplingRate :=
  { divisor := divisor, counter := 0 }

/-- `SamplingRate::step` (src/rate.rs:40-47): increment the counter modulo the
divisor; the observation is sampled exactly when the counter wraps to 0.
(`divisor == 0` is declared unreachable in the Rust source.) -/
def SamplingRate.step (r : SamplingRate) : SamplingRate × Bool :=
  let counter := (r.counter + 1) % r.divisor
  ({ r with counter := counter }, counter == 0)

/-- `SamplingRate::div` (src/rate.rs:50-53): multiply the divisor by `ratio`
without resetting the counter. -/
def SamplingRate.div (r : SamplingRate) (ratio : Nat) : SamplingRate :=
  { r with divisor := r.divisor * ratio }

/-! ## src/item.rs and src/buf.rs — items, the raw reservoir, the sampler -/

/-- `RawReservoir<T, N>` (src/buf.rs:13-18).  `Item<T>` (src/item.rs) is an
optionally-initialized cell tagged with a `NonZeroUsize` insertion index; it is
modelled as `Option (Nat × α)`.  `buf` has length `N` in every reachable state. -/
structure RawReservoir (α : Type) where
  buf : List (Option (Nat × α))
  iter : InfinitySamplerIndexer
  fill_level : Nat
deriving DecidableEq, Repr

/-- The assertion of `RawReservoir::new` / `InfinitySamplerIndexer::new`:
`assert!(N.is_power_of_two())`.  Returns whether construction succeeds. -/
def RawReservoir.newOk (N : Nat) : Bool := isPowerOfTwo N

/-- `RawReservoir::new` (src/buf.rs:40-50): an empty buffer of `N` empty items. -/
def RawReservoir.new (α : Type) (N : Nat) : RawReservoir α :=
  { buf := List.replicate N none,
    iter := InfinitySamplerIndexer.new,
    fill_level := 0 }

/-- `RawReservoir::len` (src/buf.rs:56-58). -/
def RawReservoir.len (r : RawReservoir α) : Nat := r.fill_level

/-- `RawReservoir::write` (src/buf.rs:170-182): advance the indexer one step,
store the value tagged `iter_position + 1` (the `NonZeroUsize` tag) at the
produced slot, and bump `fill_level` with ceiling `N`. -/
def RawReservoir.write (N : Nat) (r : RawReservoir α) (value : α) : RawReservoir α :=
  let iter_position := r.iter.iterator_pos
  let p := r.iter.next N
  { buf := r.buf.set p.1 (some (iter_position + 1, value)),
    iter := p.2,
    fill_level := min r.fill_level (N - 1) + 1 }

/-- Sort key used by `RawReservoir::into_ordered_iter` (src/buf.rs:185-190):
the item's insertion tag, with empty items keyed `usize::MAX`. -/
def sortKey (it : Option (Nat × α)) : Nat :=
  match it with
  | some (t, _) => t
  | none => 18446744073709551615

/-- Insertion into a list sorted by `sortKey`. -/
def insertByKey (x : Option (Nat × α)) : List (Option (Nat × α)) → List (Option (Nat × α))
  | [] => [x]
  | y :: l => if sortKey x ≤ sortKey y then x :: y :: l else y :: insertByKey x l

/-- The buffer sort performed by `into_ordered_iter` (`sort_unstable_by_key`).
All occupied items carry distinct tags and all empty items are equal, so every
comparison sort produces this list; insertion sort is used for computability. -/
def sortByKey (l : List (Option (Nat × α))) : List (Option (Nat × α)) :=
  l.foldr insertByKey []

/-- `RawReservoir::into_ordered_iter` followed by draining the iterator
(src/buf.rs:184-196 and 224-242): sort the buffer by tag, then yield the first
`fill_level` values via `take_unchecked`.  `take_unchecked` on an empty item is
UB in Rust; it surfaces here as a `none` entry in the result list. -/
def RawReservoir.into_ordered_values (r : RawReservoir α) : List (Option α) :=
  ((sortByKey r.buf).take r.fill_level).map (Option.map Prod.snd)

/-- `SamplingOutcome<T>` (src/buf.rs:20-23): the two outcomes of `sample`. -/
inductive SamplingOutcome (α : Type) where
  | Consumed
  | Discarded (value : α)
deriving DecidableEq, Repr

/-- `SamplingReservoir<T, N>` (src/buf.rs:257-260). -/
structure SamplingReservoir (α : Type) where
  inner : RawReservoir α
  sample_rate : SamplingRate
deriving DecidableEq, Repr

/-- `SamplingReservoir::new` (src/buf.rs:286-291). -/
def SamplingReservoir.new (α : Type) (N : Nat) : SamplingReservoir α :=
  { inner := RawReservoir.new α N, sample_rate := SamplingRate.new 1 }

/-- `SamplingReservoir::len`, delegated to `RawReservoir::len`. -/
def SamplingReservoir.len (s : SamplingReservoir α) : Nat := s.inner.len

/-- `SamplingReservoir::sample` (src/buf.rs:302-312): step the rate; if it fires,
first halve the rate when the halving schedule
`position ≥ N && (position - N) % (N/2) == 0` holds, then write the value and
return `Consumed`; otherwise hand the value back as `Discarded`. -/
def SamplingReservoir.sample (N : Nat) (s : SamplingReservoir α) (value : α) :
    SamplingReservoir α × SamplingOutcome α :=
  let p := s.sample_rate.step
  if p.2 then
    let pos := s.inner.iter.iterator_pos
    let rate := if N ≤ pos ∧ (pos - N) % (N / 2) = 0 then p.1.div 2 else p.1
    ({ inner := s.inner.write N value, sample_rate := rate }, SamplingOutcome.Consumed)
  else
    ({ s with sample_rate := p.1 }, SamplingOutcome.Discarded value)

/-- Feeding the sequential stream `0, 1, …, v-1` into a fresh
`SamplingReservoir` via `sample`, observation by observation: the state after
`v` observations. -/
def obsState (N : Nat) : Nat → SamplingReservoir Nat
  | 0 => SamplingReservoir.new Nat N
  | v + 1 => ((obsState N v).sample N v).1

/-- Feeding an arbitrary list of values into a fresh `SamplingReservoir`. -/
def runState (α : Type) (N : Nat) (vs : List α) : SamplingReservoir α :=
  vs.foldl (fun s v => (s.sample N v).1) (SamplingReservoir.new α N)

/-- Continuing a sequential run from an intermediate state: feed the `k` values
`start, start+1, …, start+k-1` into `s`.  Used to evaluate long runs in stages. -/
def obsFrom (N start : Nat) (s : SamplingReservoir Nat) : Nat → SamplingReservoir Nat
  | 0 => s
  | k + 1 => ((obsFrom N start s k).sample N (start + k)).1

/-! ## src/buf.rs — the two stand-alone storage-index formulations -/

/-- `RawReservoir::INDEXING_LOOP_SIZE = N * 2` (src/buf.rs:36). -/
def INDEXING_LOOP_SIZE (N : Nat) : Nat := N * 2

/-- `RawReservoir::IN_GROUP_BITS = (N / 2).trailing_zeros()` (src/buf.rs:37). -/
def IN_GROUP_BITS (N : Nat) : Nat := trailingZeros (N / 2)

/-- `RawReservoir::_pattern_base_exp_for_in_loop_index` (src/buf.rs:75-77). -/
def pattern_base_exp_for_in_loop_index (N j : Nat) : Nat := j >>> IN_GROUP_BITS N

/-- `RawReservoir::_pattern_base_for_in_loop_index` (src/buf.rs:81-83). -/
def pattern_base_for_in_loop_index (N j : Nat) : Nat :=
  1 <<< pattern_base_exp_for_in_loop_index N j

/-- The closed-form slot computation of `_optimized_storage_index` for an
in-cycle index `j < 2N` (the `else` branch of src/buf.rs:143-167, after
`in_loop_index` has been reduced mod `2N`).  Two panics of the Rust code are
modelled as `none`: the usize underflow `IN_GROUP_BITS - pattern_base_exp`
inside `_pattern_index_for_in_loop_index` (src/buf.rs:109), and the division
by zero `in_loop_index % group_size` when `group_size = N/2/pattern_base = 0`
(src/buf.rs:158).  For `N` a power of two the two failures occur for exactly
the same `j`. -/
def closedFormSlot (N j : Nat) : Option Nat :=
  let pattern_base_exp := pattern_base_exp_for_in_loop_index N j
  let pattern_base := pattern_base_for_in_loop_index N j
  if IN_GROUP_BITS N < pattern_base_exp then none
  else
    let pattern_index :=
      pattern_base + ((j >>> (IN_GROUP_BITS N - pattern_base_exp)) &&& (pattern_base - 1))
    let group_size := N / 2 / pattern_base
    if group_size = 0 then none
    else
      let pattern_offset := j % group_size
      let pattern_step := 1 <<< (pattern_base_exp + 1)
      some (pattern_index + pattern_offset * pattern_step)

/-- `RawReservoir::_optimized_storage_index` (src/buf.rs:143-167). -/
def optimized_storage_index (N inner_index : Nat) : Option Nat :=
  if inner_index < N then some inner_index
  else closedFormSlot N ((inner_index - N) % INDEXING_LOOP_SIZE N)

/-- The loop of `_naive_storage_index` (src/buf.rs:126-137).  Arguments:
fuel, `pattern_index`, `group_size`, `group_step`, `group_instances`,
iterations left in the current inner `for` loop, `remainder`.  Each fuel unit
pays for one inner-loop iteration or one outer-loop advance; for `N ≥ 2` the
remainder shrinks at every non-breaking inner iteration, so
`fuel = 2 * remainder + 4` always suffices. -/
def naiveGo (N : Nat) : Nat → Nat → Nat → Nat → Nat → Nat → Nat → Nat
  | 0, pi, _, gstep, _, _, r => pi + r * gstep
  | fuel + 1, pi, gs, gstep, ginst, 0, r =>
    naiveGo N fuel pi (max (gs / 2) 1) (gstep * 2) (ginst * 2) (ginst * 2) r
  | fuel + 1, pi, gs, gstep, ginst, k + 1, r =>
    if r < gs then pi + r * gstep
    else naiveGo N fuel (pi + 1) gs gstep ginst k (r - gs)

/-- `RawReservoir::_naive_storage_index` (src/buf.rs:113-141): the iterative
characterization of the slot sequence. -/
def naive_storage_index (N inner_index : Nat) : Nat :=
  if inner_index < N then inner_index
  else
    let in_loop_index := (inner_index - N) % INDEXING_LOOP_SIZE N
    naiveGo N (2 * in_loop_index + 4) 1 (N / 2) 2 1 1 in_loop_index

/-! ## The spec's stateless acceptance gate -/

/-- Modelled from the spec (§4.1, stateless formulation): for observation count
`i`, let `b` be the bit-length of `i` and `k = max(b - log2 N, 0)` (truncated
`Nat` subtraction, with `N = 2^e`); accept iff the low `k` bits of `i` are all
zero, i.e. `i % 2^k = 0`.  The claims apply this with `i` 1-indexed (the
original claim C3) and 0-indexed (the amended claim). -/
def statelessAccept (e i : Nat) : Bool := i % 2 ^ (bitLen i - e) == 0

/-- Closed-form divisor exponent of the `SamplingRate` before the `v`-th
(0-indexed) observation of a sequential run on `N = 2^e`: the divisor has been
halved once per completed block, giving `2 ^ (bitLen (v-1) - e)`. -/
def Dexp (e v : Nat) : Nat := bitLen (v - 1) - e

/-- Closed form of the indexer position (number of writes) before the `v`-th
(0-indexed) observation of a sequential run on `N = 2^e`: all of the first `N`
observations are accepted, and in the block `[N·2^(m-1), N·2^m)` exactly the
multiples of `2^m` are. -/
def Pclosed (e v : Nat) : Nat :=
  if v < 2 ^ e then v
  else 2 ^ e + (bitLen v - e - 1) * 2 ^ (e - 1) +
    (v - 2 ^ (bitLen v - 1) + (2 ^ (bitLen v - e) - 1)) / 2 ^ (bitLen v - e)

/-! ## Invariants used by the proofs -/

/-- Reachability invariant of the cyclic part of `InfinitySamplerIndexer`'s
state, for `N = 2^e`. -/
def IdxInv (e : Nat) (s : InfinitySamplerIndexer) : Prop :=
  ∃ p, 1 ≤ p ∧ p ≤ e ∧ s.step = 2 ^ p ∧ 2 ^ (p - 1) ≤ s.left_offset ∧
    s.left_offset < 2 ^ p ∧ s.idx < 2 ^ e ∧ s.idx % 2 ^ p = s.left_offset

/-- The last write event concerning a given slot, if any. -/
def lastEventFor (evs : List (Nat × Nat × α)) (slot : Nat) : Option (Nat × Nat × α) :=
  evs.foldl (fun acc ev => if ev.2.1 = slot then some ev else acc) none

/-- One observation of the ghost-instrumented run: replay one `sample` call
keeping a log of write events `(ordinal, slot, value)`, one entry per accepted
observation, in write order, recording the tag the write stored
(`iterator_pos + 1`), the slot the indexer produced, and the value. -/
def runEvStep (N : Nat) (acc : SamplingReservoir α × List (Nat × Nat × α)) (v : α) :
    SamplingReservoir α × List (Nat × Nat × α) :=
  let pos := acc.1.inner.iter.iterator_pos
  let slot := (acc.1.inner.iter.next N).1
  let r := acc.1.sample N v
  match r.2 with
  | SamplingOutcome.Consumed => (r.1, acc.2 ++ [(pos + 1, slot, v)])
  | SamplingOutcome.Discarded _ => (r.1, acc.2)

/-- The ghost-instrumented run over a list of observations.  The ghost log
changes nothing about the reservoir itself (`runEv_fst` below). -/
def runEv (N : Nat) (vs : List α) : SamplingReservoir α × List (Nat × Nat × α) :=
  vs.foldl (runEvStep N) (SamplingReservoir.new α N, [])

/-- Invariant tying the reservoir state to the ghost write log: entry `i` of
the log carries ordinal `i+1`; the indexer position counts the log; and each
occupied slot holds exactly the tag/value of the last write event for it. -/
def EvInv (α : Type) (N : Nat) (acc : SamplingReservoir α × List (Nat × Nat × α)) : Prop :=
  acc.1.inner.buf.length = N ∧
  acc.1.inner.iter.iterator_pos = acc.2.length ∧
  (∀ i ev, acc.2[i]? = some ev → ev.1 = i + 1) ∧
  (∀ slot t v, acc.1.inner.buf[slot]? = some (some (t, v)) →
    lastEventFor acc.2 slot = some (t, slot, v) ∧ acc.2[t - 1]? = some (t, slot, v))

/-! ## Validation of the embedding against the repository's test vectors -/

example : (iterateForward 16 48).2 =
    [0, 1, 2, 3, 4, 5, 6, 7, 8, 9, 10, 11, 12, 13, 14, 15,
     1, 3, 5, 7, 9, 11, 13, 15, 2, 6, 10, 14, 3, 7, 11, 15,
     4, 12, 5, 13, 6, 14, 7, 15, 8, 9, 10, 11, 12, 13, 14, 15] := by decide

example : (iterateForward 8 32).2 =
    [0, 1, 2, 3, 4, 5, 6, 7, 1, 3, 5, 7, 2, 6, 3, 7, 4, 5, 6, 7,
     1, 3, 5, 7, 2, 6, 3, 7, 4, 5, 6, 7] := by decide

example :
    (revRun 16 20 ((iterateForward 16 20).1.reverse)).1 =
      ((iterateForward 16 20).2).reverse := by decide

example :
    (revRun 8 32 ((iterateForward 8 32).1.reverse)).1 =
      ((iterateForward 8 32).2).reverse := by decide

example : (List.range 48).map (optimized_storage_index 16) =
    ((List.range 48).map (naive_storage_index 16)).map some := by decide

example : (List.range 48).map (naive_storage_index 16) =
    [0, 1, 2, 3, 4, 5, 6, 7, 8, 9, 10, 11, 12, 13, 14, 15,
     1, 3, 5, 7, 9, 11, 13, 15, 2, 6, 10, 14, 3, 7, 11, 15,
     4, 12, 5, 13, 6, 14, 7, 15, 8, 9, 10, 11, 12, 13, 14, 15] := by decide

example : naive_storage_index 8 20 = 8 := by decide

example : optimized_storage_index 8 20 = none := by decide

example : ∀ j, j < 64 →
    optimized_storage_index 32 j = some (naive_storage_index 32 j) := by decide

/-! ## Elementary facts about `bitLen` and `trailingZeros` -/

lemma bitLenGo_le_iff : ∀ fuel n k, n ≤ fuel → (bitLenGo fuel n ≤ k ↔ n < 2 ^ k) := by
  intro fuel
  induction fuel with
  | zero =>
    intro n k hn
    interval_cases n
    simp [bitLenGo, Nat.pos_pow_of_pos, Nat.pow_pos]
  | succ fuel ih =>
    intro n k hn
    by_cases h0 : n = 0
    · subst h0; simp [bitLenGo, Nat.pow_pos]
    · rw [show bitLenGo (fuel + 1) n = 1 + bitLenGo fuel (n / 2) by simp [bitLenGo, h0]]
      cases k with
      | zero =>
        simp only [Nat.pow_zero, Nat.lt_one_iff]
        omega
      | succ k =>
        have hrec : n / 2 ≤ fuel := by omega
        rw [show 1 + bitLenGo fuel (n / 2) ≤ k + 1 ↔ bitLenGo fuel (n / 2) ≤ k by omega]
        rw [ih (n / 2) k hrec]
        rw [Nat.div_lt_iff_lt_mul (by norm_num : 0 < 2)]
        rw [Nat.pow_succ]

lemma bitLen_le_iff (n k : Nat) : bitLen n ≤ k ↔ n < 2 ^ k :=
  bitLenGo_le_iff n n k le_rfl

lemma lt_two_pow_bitLen (n : Nat) : n < 2 ^ bitLen n :=
  (bitLen_le_iff n (bitLen n)).mp le_rfl

lemma bitLen_pos (n : Nat) (h : 1 ≤ n) : 1 ≤ bitLen n := by
  by_contra hc
  have : bitLen n ≤ 0 := by omega
  have := (bitLen_le_iff n 0).mp this
  omega

lemma two_pow_pred_bitLen_le (n : Nat) (h : 1 ≤ n) : 2 ^ (bitLen n - 1) ≤ n := by
  by_contra hc
  have h1 := bitLen_pos n h
  have := (bitLen_le_iff n (bitLen n - 1)).mpr (by omega)
  omega

lemma bitLen_eq_succ_iff (n j : Nat) : bitLen n = j + 1 ↔ 2 ^ j ≤ n ∧ n < 2 ^ (j + 1) := by
  constructor
  · intro h
    refine ⟨?_, (bitLen_le_iff n (j + 1)).mp (le_of_eq h)⟩
    have := two_pow_pred_bitLen_le n ?_
    · rw [h] at this; simpa using this
    · by_contra hc
      have hn : n = 0 := by omega
      subst hn
      simp [bitLen, bitLenGo] at h
  · rintro ⟨h1, h2⟩
    have ha : bitLen n ≤ j + 1 := (bitLen_le_iff n (j + 1)).mpr h2
    have hb : ¬ bitLen n ≤ j := fun hc => absurd ((bitLen_le_iff n j).mp hc) (by omega)
    omega

lemma bitLen_two_pow (j : Nat) : bitLen (2 ^ j) = j + 1 :=
  (bitLen_eq_succ_iff (2 ^ j) j).mpr ⟨le_rfl, Nat.pow_lt_pow_right (by norm_num) (by omega)⟩

lemma bitLen_two_pow_sub_one (j : Nat) : bitLen (2 ^ j - 1) = j := by
  cases j with
  | zero => simp [bitLen, bitLenGo]
  | succ j =>
    apply (bitLen_eq_succ_iff (2 ^ (j + 1) - 1) j).mpr
    have h1 : 2 ^ j + 2 ^ j = 2 ^ (j + 1) := by rw [Nat.pow_succ]; omega
    have h2 : 1 ≤ 2 ^ j := Nat.one_le_two_pow
    omega

lemma bitLen_pred (v : Nat) (h1 : 1 ≤ v) (h2 : v ≠ 2 ^ (bitLen v - 1)) :
    bitLen (v - 1) = bitLen v := by
  have hp := bitLen_pos v h1
  have hlow := two_pow_pred_bitLen_le v h1
  have hhigh := lt_two_pow_bitLen v
  have h3 : bitLen v - 1 + 1 = bitLen v := by omega
  rw [← h3]
  apply (bitLen_eq_succ_iff (v - 1) (bitLen v - 1)).mpr
  rw [h3]
  omega

lemma trailingZerosGo_two_pow : ∀ k fuel, k < fuel → trailingZerosGo fuel (2 ^ k) = k := by
  intro k
  induction k with
  | zero =>
    intro fuel hf
    match fuel, hf with
    | fuel + 1, _ => simp [trailingZerosGo]
  | succ k ih =>
    intro fuel hf
    match fuel, hf with
    | fuel + 1, hf =>
      have hpos : 2 ^ (k + 1) ≠ 0 := (Nat.pow_pos (by norm_num)).ne'
      have heven : 2 ^ (k + 1) % 2 = 0 := by
        rw [Nat.pow_succ]
        exact Nat.mul_mod_left _ 2
      have hdiv : 2 ^ (k + 1) / 2 = 2 ^ k := by
        rw [Nat.pow_succ]
        exact Nat.mul_div_cancel _ (by norm_num)
      simp only [trailingZerosGo, hpos, if_false, heven]
      rw [if_neg (by omega), hdiv, ih fuel (by omega)]
      omega

lemma trailingZeros_two_pow (k : Nat) : trailingZeros (2 ^ k) = k :=
  trailingZerosGo_two_pow k (2 ^ k + 1) (by have := Nat.lt_two_pow k; omega)

lemma two_pow_div_two (e : Nat) (he : 1 ≤ e) : 2 ^ e / 2 = 2 ^ (e - 1) := by
  have : 2 ^ e = 2 ^ (e - 1) * 2 := by
    rw [← Nat.pow_succ]
    congr 1
    omega
  rw [this]
  exact Nat.mul_div_cancel _ (by norm_num)

lemma IN_GROUP_BITS_two_pow (e : Nat) (he : 1 ≤ e) : IN_GROUP_BITS (2 ^ e) = e - 1 := by
  rw [IN_GROUP_BITS, two_pow_div_two e he, trailingZeros_two_pow]

/-! ## Claim C1 — naive vs optimized storage index -/

/-- Claim C1, counterexample: at `N = 8`, `inner_index = 20` (in-cycle index
`j = 12`) the iterative formulation produces slot 8 — which is out of range for
an 8-slot buffer — while the closed-form `_optimized_storage_index` cannot
produce any slot at all: `IN_GROUP_BITS - pattern_base_exp = 2 - 3` underflows
and `group_size = 4 / 8 = 0` makes `in_loop_index % group_size` divide by zero,
so the Rust code panics.  The two formulations therefore do not agree for
`N = 8`, refuting the claim's universal equivalence (and its `N ∈ {8, 16}`,
first-1024-steps instance). -/
theorem c1_counterexample :
    naive_storage_index 8 20 = 8 ∧ optimized_storage_index 8 20 = none := by
  constructor <;> decide

lemma two_pow_succ_eq (k : Nat) : 2 ^ (k + 1) = 2 * 2 ^ k := by
  rw [Nat.pow_succ]; ring

lemma max_two_pow_div (k : Nat) (hk : 1 ≤ k) : max (2 ^ k / 2) 1 = 2 ^ (k - 1) := by
  rw [two_pow_div_two k hk]
  exact Nat.max_eq_left Nat.one_le_two_pow

/-- Evaluation of `closedFormSlot` on its defined domain (`N = 2^e`, `e ≥ 4`,
`j < 2N`): with `p = j / 2^(e-1)` the pattern exponent, the slot is
`2^p + (j / 2^(e-1-p)) mod 2^p + (j mod 2^(e-1-p)) · 2^(p+1)`. -/
lemma closedFormSlot_eval (e j : Nat) (he : 4 ≤ e) (hj : j < 2 ^ (e + 1)) :
    closedFormSlot (2 ^ e) j =
      some (2 ^ (j / 2 ^ (e - 1)) +
        j / 2 ^ (e - 1 - j / 2 ^ (e - 1)) % 2 ^ (j / 2 ^ (e - 1)) +
        j % 2 ^ (e - 1 - j / 2 ^ (e - 1)) * 2 ^ (j / 2 ^ (e - 1) + 1)) := by
  have he1 : 1 ≤ e := by omega
  have hig : IN_GROUP_BITS (2 ^ e) = e - 1 := IN_GROUP_BITS_two_pow e he1
  have hshift : j >>> IN_GROUP_BITS (2 ^ e) = j / 2 ^ (e - 1) := by
    rw [hig, Nat.shiftRight_eq_div_pow]
  have hpbe : j / 2 ^ (e - 1) ≤ 3 := by
    have h4 : 2 ^ (e + 1) = 4 * 2 ^ (e - 1) := by
      rw [show e + 1 = (e - 1) + 2 by omega, Nat.pow_add]
      ring
    have hlt := (Nat.div_lt_iff_lt_mul (Nat.pow_pos (by norm_num : (0:Nat) < 2))).mpr
      (by omega : j < 4 * 2 ^ (e - 1))
    omega
  have hguard1 : ¬ IN_GROUP_BITS (2 ^ e) < j >>> IN_GROUP_BITS (2 ^ e) := by
    rw [hshift, hig]; omega
  simp only [closedFormSlot, pattern_base_exp_for_in_loop_index,
    pattern_base_for_in_loop_index]
  rw [if_neg hguard1, hshift]
  have hpb : (1 : Nat) <<< (j / 2 ^ (e - 1)) = 2 ^ (j / 2 ^ (e - 1)) := by
    rw [Nat.shiftLeft_eq, one_mul]
  have hps : (1 : Nat) <<< (j / 2 ^ (e - 1) + 1) = 2 ^ (j / 2 ^ (e - 1) + 1) := by
    rw [Nat.shiftLeft_eq, one_mul]
  rw [hpb, hps]
  have hgs : 2 ^ e / 2 / 2 ^ (j / 2 ^ (e - 1)) = 2 ^ (e - 1 - j / 2 ^ (e - 1)) := by
    rw [two_pow_div_two e he1, Nat.pow_div (by omega) (by norm_num)]
  rw [hgs, if_neg (Nat.pow_pos (by norm_num : (0:Nat) < 2)).ne']
  rw [hig, Nat.shiftRight_eq_div_pow, Nat.and_pow_two_sub_one_eq_mod]

lemma naiveGo_consume (N fuel pi gs gstep ginst c r : Nat) (h : ¬ r < gs) :
    naiveGo N (fuel + 1) pi gs gstep ginst (c + 1) r =
      naiveGo N fuel (pi + 1) gs gstep ginst c (r - gs) := by
  simp [naiveGo, h]

/-- One full outer round of the naive loop: with `c` inner iterations left and
at least `c * gs` remainder, the loop consumes all `c` iterations (incrementing
`pattern_index` by `c`) and then advances to the next group shape. -/
lemma naiveGo_round (N : Nat) : ∀ (c fuel F pi gs gstep ginst r : Nat), F = fuel + c + 1 →
    c * gs ≤ r →
    naiveGo N F pi gs gstep ginst c r =
      naiveGo N fuel (pi + c) (max (gs / 2) 1) (gstep * 2) (ginst * 2) (ginst * 2)
        (r - c * gs) := by
  intro c
  induction c with
  | zero =>
    intro fuel F pi gs gstep ginst r hF _
    subst hF
    simp [naiveGo]
  | succ c ih =>
    intro fuel F pi gs gstep ginst r hF hle
    subst hF
    have hs : (c + 1) * gs = c * gs + gs := Nat.succ_mul _ _
    have hgs : ¬ r < gs := by omega
    calc naiveGo N (fuel + (c + 1) + 1) pi gs gstep ginst (c + 1) r
        = naiveGo N ((fuel + c + 1) + 1) pi gs gstep ginst (c + 1) r := by
          rw [show fuel + (c + 1) + 1 = (fuel + c + 1) + 1 by omega]
      _ = naiveGo N (fuel + c + 1) (pi + 1) gs gstep ginst c (r - gs) :=
          naiveGo_consume N (fuel + c + 1) pi gs gstep ginst c r hgs
      _ = naiveGo N fuel (pi + 1 + c) (max (gs / 2) 1) (gstep * 2) (ginst * 2) (ginst * 2)
            (r - gs - c * gs) :=
          ih fuel (fuel + c + 1) (pi + 1) gs gstep ginst (r - gs) rfl (by omega)
      _ = naiveGo N fuel (pi + (c + 1)) (max (gs / 2) 1) (gstep * 2) (ginst * 2) (ginst * 2)
            (r - (c + 1) * gs) := by
          rw [show pi + 1 + c = pi + (c + 1) by omega,
            show r - gs - c * gs = r - (c + 1) * gs by omega]

/-- The final, breaking round of the naive loop: with remainder `r` in the
`q`-th group of the current shape (`q < C` inner iterations available), the
loop consumes `q` groups and breaks, returning
`pi + q + (r - q * gs) * gstep`. -/
lemma naiveGo_inner (N : Nat) : ∀ (q C fuel F pi gs gstep ginst r : Nat), F = fuel + q + 1 →
    q < C → q * gs ≤ r → r < (q + 1) * gs →
    naiveGo N F pi gs gstep ginst C r = pi + q + (r - q * gs) * gstep := by
  intro q
  induction q with
  | zero =>
    intro C fuel F pi gs gstep ginst r hF hC h1 h2
    subst hF
    obtain ⟨C', rfl⟩ : ∃ C', C = C' + 1 := ⟨C - 1, by omega⟩
    have h2' : r < gs := by
      calc r < (0 + 1) * gs := h2
        _ = gs := by rw [Nat.zero_add, one_mul]
    simp [naiveGo, h2']
  | succ q ih =>
    intro C fuel F pi gs gstep ginst r hF hC h1 h2
    subst hF
    obtain ⟨C', rfl⟩ : ∃ C', C = C' + 1 := ⟨C - 1, by omega⟩
    have hs1 : (q + 1) * gs = q * gs + gs := Nat.succ_mul _ _
    have hs2 : (q + 1 + 1) * gs = (q + 1) * gs + gs := Nat.succ_mul _ _
    have hgs : ¬ r < gs := by omega
    calc naiveGo N (fuel + (q + 1) + 1) pi gs gstep ginst (C' + 1) r
        = naiveGo N ((fuel + q + 1) + 1) pi gs gstep ginst (C' + 1) r := by
          rw [show fuel + (q + 1) + 1 = (fuel + q + 1) + 1 by omega]
      _ = naiveGo N (fuel + q + 1) (pi + 1) gs gstep ginst C' (r - gs) :=
          naiveGo_consume N (fuel + q + 1) pi gs gstep ginst C' r hgs
      _ = pi + 1 + q + (r - gs - q * gs) * gstep :=
          ih C' fuel (fuel + q + 1) (pi + 1) gs gstep ginst (r - gs) rfl (by omega)
            (by omega) (by omega)
      _ = pi + (q + 1) + (r - (q + 1) * gs) * gstep := by
          rw [show r - gs - q * gs = r - (q + 1) * gs by omega]
          omega

lemma sub_div_mul_eq_mod (a b : Nat) : a - a / b * b = a % b := by
  have h := Nat.div_add_mod a b
  calc a - a / b * b = (b * (a / b) + a % b) - a / b * b := by rw [h]
    _ = (a / b * b + a % b) - a / b * b := by rw [Nat.mul_comm]
    _ = a % b := by rw [Nat.add_sub_cancel_left]

/-- The naive loop, run on the standard initial state, computes exactly the
closed-form slot value: the pattern exponent `p = j / 2^(e-1)` counts the full
rounds, each consuming `2^(e-1)` of the remainder, and the break inside round
`p` lands at `2^p + (j mod 2^(e-1)) / 2^(e-1-p)` with offset factor
`2^(p+1)`. -/
lemma naive_run_eq (e j : Nat) (he : 4 ≤ e) (hj : j < 2 ^ (e + 1)) :
    naiveGo (2 ^ e) (2 * j + 4) 1 (2 ^ (e - 1)) 2 1 1 j =
      2 ^ (j / 2 ^ (e - 1)) +
        j / 2 ^ (e - 1 - j / 2 ^ (e - 1)) % 2 ^ (j / 2 ^ (e - 1)) +
        j % 2 ^ (e - 1 - j / 2 ^ (e - 1)) * 2 ^ (j / 2 ^ (e - 1) + 1) := by
  have h2pos : ∀ k : Nat, 0 < 2 ^ k := fun k => Nat.pow_pos (by norm_num)
  have hp8 : (8:Nat) ≤ 2 ^ (e - 1) := by
    calc (8:Nat) = 2 ^ 3 := by norm_num
      _ ≤ 2 ^ (e - 1) := Nat.pow_le_pow_right (by norm_num) (by omega)
  have hpbe : j / 2 ^ (e - 1) ≤ 3 := by
    have h4 : 2 ^ (e + 1) = 4 * 2 ^ (e - 1) := by
      rw [show e + 1 = (e - 1) + 2 by omega, Nat.pow_add]
      ring
    have hlt := (Nat.div_lt_iff_lt_mul (h2pos (e - 1))).mpr
      (by omega : j < 4 * 2 ^ (e - 1))
    omega
  have hjm := Nat.div_add_mod j (2 ^ (e - 1))
  have hmlt : j % 2 ^ (e - 1) < 2 ^ (e - 1) := Nat.mod_lt j (h2pos (e - 1))
  have hcase : j / 2 ^ (e - 1) = 0 ∨ j / 2 ^ (e - 1) = 1 ∨ j / 2 ^ (e - 1) = 2 ∨
      j / 2 ^ (e - 1) = 3 := by
    revert hpbe
    generalize j / 2 ^ (e - 1) = P
    omega
  rcases hcase with hp | hp | hp | hp
  · -- pattern 0: break in the first round
    rw [hp] at hjm ⊢
    have hjlt : j < 2 ^ (e - 1) := by omega
    have hinner := naiveGo_inner (2 ^ e) 0 1 (2 * j + 3) (2 * j + 4) 1 (2 ^ (e - 1)) 2 1 j
      (by omega) (by norm_num) (by simp) (by simpa using hjlt)
    rw [hinner]
    simp [Nat.mod_eq_of_lt hjlt]
    exact Nat.mod_one _
  · -- pattern 1: one full round, then break
    rw [hp] at hjm ⊢
    have hsplit : 2 ^ (e - 1) = 2 * 2 ^ (e - 2) := by
      rw [← two_pow_succ_eq]
      congr 1
      omega
    have h1 := naiveGo_round (2 ^ e) 1 (2 * j + 2) (2 * j + 4) 1 (2 ^ (e - 1)) 2 1 j
      (by omega) (by rw [one_mul]; omega)
    rw [max_two_pow_div (e - 1) (by omega), show e - 1 - 1 = e - 2 by omega] at h1
    norm_num at h1
    rw [show j - 2 ^ (e - 1) = j % 2 ^ (e - 1) by omega] at h1
    have hq1 : j % 2 ^ (e - 1) / 2 ^ (e - 2) < 2 :=
      (Nat.div_lt_iff_lt_mul (h2pos (e - 2))).mpr (by omega)
    have hqle : j % 2 ^ (e - 1) / 2 ^ (e - 2) * 2 ^ (e - 2) ≤ j % 2 ^ (e - 1) :=
      Nat.div_mul_le_self _ _
    have hd2 := Nat.div_add_mod (j % 2 ^ (e - 1)) (2 ^ (e - 2))
    have hub : j % 2 ^ (e - 1) < (j % 2 ^ (e - 1) / 2 ^ (e - 2) + 1) * 2 ^ (e - 2) := by
      have hx : (j % 2 ^ (e - 1) / 2 ^ (e - 2) + 1) * 2 ^ (e - 2) =
          2 ^ (e - 2) * (j % 2 ^ (e - 1) / 2 ^ (e - 2)) + 2 ^ (e - 2) := by ring
      have hm2 : j % 2 ^ (e - 1) % 2 ^ (e - 2) < 2 ^ (e - 2) := Nat.mod_lt _ (h2pos (e - 2))
      omega
    have h2 := naiveGo_inner (2 ^ e) (j % 2 ^ (e - 1) / 2 ^ (e - 2)) 2
      (2 * j + 1 - j % 2 ^ (e - 1) / 2 ^ (e - 2)) (2 * j + 2) 2 (2 ^ (e - 2)) 4 2
      (j % 2 ^ (e - 1)) (by omega) hq1 hqle hub
    rw [h1, h2]
    have hdiv : j / 2 ^ (e - 2) = j % 2 ^ (e - 1) / 2 ^ (e - 2) + 2 := by
      conv_lhs => rw [show j = j % 2 ^ (e - 1) + 2 * 2 ^ (e - 2) by omega]
      exact Nat.add_mul_div_right _ _ (h2pos (e - 2))
    have hb : j % 2 ^ (e - 2) = j % 2 ^ (e - 1) % 2 ^ (e - 2) := by
      conv_lhs => rw [show j = j % 2 ^ (e - 1) + 2 * 2 ^ (e - 2) by omega]
      exact Nat.add_mul_mod_self_right _ _ _
    rw [show e - 1 - 1 = e - 2 by omega, hdiv, hb]
    have hc : j % 2 ^ (e - 1) - j % 2 ^ (e - 1) / 2 ^ (e - 2) * 2 ^ (e - 2) =
        j % 2 ^ (e - 1) % 2 ^ (e - 2) := sub_div_mul_eq_mod _ _
    rw [hc]
    have hmodd : (j % 2 ^ (e - 1) / 2 ^ (e - 2) + 2) % 2 ^ 1 =
        j % 2 ^ (e - 1) / 2 ^ (e - 2) := by
      rw [show (2:Nat) ^ 1 = 2 by norm_num, Nat.add_mod_right, Nat.mod_eq_of_lt hq1]
    rw [hmodd]
    norm_num
  · -- pattern 2: two full rounds, then break
    rw [hp] at hjm ⊢
    have hsplit : 2 ^ (e - 1) = 2 * 2 ^ (e - 2) := by
      rw [← two_pow_succ_eq]
      congr 1
      omega
    have hsplit3 : 2 ^ (e - 1) = 4 * 2 ^ (e - 3) := by
      rw [show e - 1 = e - 3 + 2 by omega, Nat.pow_add]
      ring
    have h1 := naiveGo_round (2 ^ e) 1 (2 * j + 2) (2 * j + 4) 1 (2 ^ (e - 1)) 2 1 j
      (by omega) (by rw [one_mul]; omega)
    rw [max_two_pow_div (e - 1) (by omega), show e - 1 - 1 = e - 2 by omega] at h1
    norm_num at h1
    have h2 := naiveGo_round (2 ^ e) 2 (2 * j - 1) (2 * j + 2) 2 (2 ^ (e - 2)) 4 2
      (j - 2 ^ (e - 1)) (by omega) (by omega)
    rw [max_two_pow_div (e - 2) (by omega), show e - 2 - 1 = e - 3 by omega] at h2
    norm_num at h2
    rw [show j - 2 ^ (e - 1) - 2 * 2 ^ (e - 2) = j % 2 ^ (e - 1) by omega] at h2
    have hq1 : j % 2 ^ (e - 1) / 2 ^ (e - 3) < 4 :=
      (Nat.div_lt_iff_lt_mul (h2pos (e - 3))).mpr (by omega)
    have hqle : j % 2 ^ (e - 1) / 2 ^ (e - 3) * 2 ^ (e - 3) ≤ j % 2 ^ (e - 1) :=
      Nat.div_mul_le_self _ _
    have hd2 := Nat.div_add_mod (j % 2 ^ (e - 1)) (2 ^ (e - 3))
    have hub : j % 2 ^ (e - 1) < (j % 2 ^ (e - 1) / 2 ^ (e - 3) + 1) * 2 ^ (e - 3) := by
      have hx : (j % 2 ^ (e - 1) / 2 ^ (e - 3) + 1) * 2 ^ (e - 3) =
          2 ^ (e - 3) * (j % 2 ^ (e - 1) / 2 ^ (e - 3)) + 2 ^ (e - 3) := by ring
      have hm2 : j % 2 ^ (e - 1) % 2 ^ (e - 3) < 2 ^ (e - 3) := Nat.mod_lt _ (h2pos (e - 3))
      omega
    have h3 := naiveGo_inner (2 ^ e) (j % 2 ^ (e - 1) / 2 ^ (e - 3)) 4
      (2 * j - 2 - j % 2 ^ (e - 1) / 2 ^ (e - 3)) (2 * j - 1) 4 (2 ^ (e - 3)) 8 4
      (j % 2 ^ (e - 1)) (by omega) hq1 hqle hub
    rw [h1, h2, h3]
    have hdiv : j / 2 ^ (e - 3) = j % 2 ^ (e - 1) / 2 ^ (e - 3) + 8 := by
      conv_lhs => rw [show j = j % 2 ^ (e - 1) + 8 * 2 ^ (e - 3) by omega]
      exact Nat.add_mul_div_right _ _ (h2pos (e - 3))
    have hb : j % 2 ^ (e - 3) = j % 2 ^ (e - 1) % 2 ^ (e - 3) := by
      conv_lhs => rw [show j = j % 2 ^ (e - 1) + 8 * 2 ^ (e - 3) by omega]
      exact Nat.add_mul_mod_self_right _ _ _
    rw [show e - 1 - 2 = e - 3 by omega, hdiv, hb]
    have hc : j % 2 ^ (e - 1) - j % 2 ^ (e - 1) / 2 ^ (e - 3) * 2 ^ (e - 3) =
        j % 2 ^ (e - 1) % 2 ^ (e - 3) := sub_div_mul_eq_mod _ _
    rw [hc]
    have hmodd : (j % 2 ^ (e - 1) / 2 ^ (e - 3) + 8) % 2 ^ 2 =
        j % 2 ^ (e - 1) / 2 ^ (e - 3) := by
      rw [show (2:Nat) ^ 2 = 4 by norm_num, show (8:Nat) = 2 * 4 by norm_num,
        Nat.add_mul_mod_self_right, Nat.mod_eq_of_lt hq1]
    rw [hmodd]
    norm_num
  · -- pattern 3: three full rounds, then break
    rw [hp] at hjm ⊢
    have hsplit : 2 ^ (e - 1) = 2 * 2 ^ (e - 2) := by
      rw [← two_pow_succ_eq]
      congr 1
      omega
    have hsplit3 : 2 ^ (e - 1) = 4 * 2 ^ (e - 3) := by
      rw [show e - 1 = e - 3 + 2 by omega, Nat.pow_add]
      ring
    have hsplit4 : 2 ^ (e - 1) = 8 * 2 ^ (e - 4) := by
      rw [show e - 1 = e - 4 + 3 by omega, Nat.pow_add]
      ring
    have h1 := naiveGo_round (2 ^ e) 1 (2 * j + 2) (2 * j + 4) 1 (2 ^ (e - 1)) 2 1 j
      (by omega) (by rw [one_mul]; omega)
    rw [max_two_pow_div (e - 1) (by omega), show e - 1 - 1 = e - 2 by omega] at h1
    norm_num at h1
    have h2 := naiveGo_round (2 ^ e) 2 (2 * j - 1) (2 * j + 2) 2 (2 ^ (e - 2)) 4 2
      (j - 2 ^ (e - 1)) (by omega) (by omega)
    rw [max_two_pow_div (e - 2) (by omega), show e - 2 - 1 = e - 3 by omega] at h2
    norm_num at h2
    have h3 := naiveGo_round (2 ^ e) 4 (2 * j - 6) (2 * j - 1) 4 (2 ^ (e - 3)) 8 4
      (j - 2 ^ (e - 1) - 2 * 2 ^ (e - 2)) (by omega) (by omega)
    rw [max_two_pow_div (e - 3) (by omega), show e - 3 - 1 = e - 4 by omega] at h3
    norm_num at h3
    rw [show j - 2 ^ (e - 1) - 2 * 2 ^ (e - 2) - 4 * 2 ^ (e - 3) = j % 2 ^ (e - 1) by omega]
      at h3
    have hq1 : j % 2 ^ (e - 1) / 2 ^ (e - 4) < 8 :=
      (Nat.div_lt_iff_lt_mul (h2pos (e - 4))).mpr (by omega)
    have hqle : j % 2 ^ (e - 1) / 2 ^ (e - 4) * 2 ^ (e - 4) ≤ j % 2 ^ (e - 1) :=
      Nat.div_mul_le_self _ _
    have hd2 := Nat.div_add_mod (j % 2 ^ (e - 1)) (2 ^ (e - 4))
    have hub : j % 2 ^ (e - 1) < (j % 2 ^ (e - 1) / 2 ^ (e - 4) + 1) * 2 ^ (e - 4) := by
      have hx : (j % 2 ^ (e - 1) / 2 ^ (e - 4) + 1) * 2 ^ (e - 4) =
          2 ^ (e - 4) * (j % 2 ^ (e - 1) / 2 ^ (e - 4)) + 2 ^ (e - 4) := by ring
      have hm2 : j % 2 ^ (e - 1) % 2 ^ (e - 4) < 2 ^ (e - 4) := Nat.mod_lt _ (h2pos (e - 4))
      omega
    have h4 := naiveGo_inner (2 ^ e) (j % 2 ^ (e - 1) / 2 ^ (e - 4)) 8
      (2 * j - 7 - j % 2 ^ (e - 1) / 2 ^ (e - 4)) (2 * j - 6) 8 (2 ^ (e - 4)) 16 8
      (j % 2 ^ (e - 1)) (by omega) hq1 hqle hub
    rw [h1, h2, h3, h4]
    have hdiv : j / 2 ^ (e - 4) = j % 2 ^ (e - 1) / 2 ^ (e - 4) + 24 := by
      conv_lhs => rw [show j = j % 2 ^ (e - 1) + 24 * 2 ^ (e - 4) by omega]
      exact Nat.add_mul_div_right _ _ (h2pos (e - 4))
    have hb : j % 2 ^ (e - 4) = j % 2 ^ (e - 1) % 2 ^ (e - 4) := by
      conv_lhs => rw [show j = j % 2 ^ (e - 1) + 24 * 2 ^ (e - 4) by omega]
      exact Nat.add_mul_mod_self_right _ _ _
    rw [show e - 1 - 3 = e - 4 by omega, hdiv, hb]
    have hc : j % 2 ^ (e - 1) - j % 2 ^ (e - 1) / 2 ^ (e - 4) * 2 ^ (e - 4) =
        j % 2 ^ (e - 1) % 2 ^ (e - 4) := sub_div_mul_eq_mod _ _
    rw [hc]
    have hmodd : (j % 2 ^ (e - 1) / 2 ^ (e - 4) + 24) % 2 ^ 3 =
        j % 2 ^ (e - 1) / 2 ^ (e - 4) := by
      rw [show (2:Nat) ^ 3 = 8 by norm_num, show (24:Nat) = 3 * 8 by norm_num,
        Nat.add_mul_mod_self_right, Nat.mod_eq_of_lt hq1]
    rw [hmodd]
    norm_num

lemma closedFormSlot_eq_naiveGo (e j : Nat) (he : 4 ≤ e) (hj : j < 2 ^ (e + 1)) :
    closedFormSlot (2 ^ e) j = some (naiveGo (2 ^ e) (2 * j + 4) 1 (2 ^ e / 2) 2 1 1 j) := by
  rw [closedFormSlot_eval e j he hj, two_pow_div_two e (by omega), naive_run_eq e j he hj]

/-- Claim C1, amended: for every power of two `N = 2^e` with `N ≥ 16` and every
index, the closed-form (`_optimized_storage_index`) and the iterative
(`_naive_storage_index`) storage-index computations agree — in particular on
each of the first 1024 steps for `N = 16`.  The universal claim over all powers
of two fails for `N ∈ {2, 4, 8}`: see `c1_counterexample` for `N = 8`. -/
theorem c1_theorem (e inner_index : Nat) (he : 4 ≤ e) :
    optimized_storage_index (2 ^ e) inner_index =
      some (naive_storage_index (2 ^ e) inner_index) := by
  by_cases h : inner_index < 2 ^ e
  · simp [optimized_storage_index, naive_storage_index, h]
  · have hloop : INDEXING_LOOP_SIZE (2 ^ e) = 2 ^ (e + 1) := by
      rw [INDEXING_LOOP_SIZE, Nat.pow_succ]
    have hj : (inner_index - 2 ^ e) % INDEXING_LOOP_SIZE (2 ^ e) < 2 ^ (e + 1) := by
      rw [hloop]
      exact Nat.mod_lt _ (Nat.pow_pos (by norm_num))
    simp only [optimized_storage_index, naive_storage_index, if_neg h]
    exact closedFormSlot_eq_naiveGo e _ he hj

/-- Claim C1, witness for the amended theorem at `e = 4` (`N = 16`),
`inner_index = 20`. -/
theorem c1_witness :
    (4 ≤ 4) ∧ optimized_storage_index (2 ^ 4) 20 = some (naive_storage_index (2 ^ 4) 20) :=
  ⟨by decide, c1_theorem 4 20 (by decide)⟩

/-! ## Claim C5 — end-to-end chronological views -/

/-- Claim C5: feeding `0..256` into a fresh `SamplingReservoir` of capacity 8
and taking the chronological view yields exactly `[0,32,64,96,128,160,192,224]`,
and feeding `0..50` at capacity 16 yields exactly
`[0,4,8,12,16,20,22,24,26,28,30,32,36,40,44,48]` (each value present and
initialized, hence the `some` wrappers of the model). -/
lemma obsState_add (N a : Nat) : ∀ k, obsState N (a + k) = obsFrom N a (obsState N a) k := by
  intro k
  induction k with
  | zero => rfl
  | succ k ih =>
    show ((obsState N (a + k)).sample N (a + k)).1 = _
    rw [ih]
    rfl

set_option maxRecDepth 400000 in
lemma obsState_8_128 :
    obsState 8 128 =
      { inner := { buf := [some (1, 0), some (21, 64), some (13, 16), some (22, 80),
                           some (17, 32), some (23, 96), some (19, 48), some (24, 112)],
                   iter := { iterator_pos := 24, idx := 2, left_offset := 2, step := 4 },
                   fill_level := 8 },
        sample_rate := { divisor := 16, counter := 15 } } := by decide

set_option maxRecDepth 400000 in
/-- Claim C5: feeding the values `0..256` via `sample` into a fresh
`SamplingReservoir` of capacity `N = 8` and taking the chronological (ordered)
view yields exactly `[0, 32, 64, 96, 128, 160, 192, 224]`; feeding `0..50`
into a fresh reservoir of capacity `N = 16` yields exactly
`[0, 4, 8, 12, 16, 20, 22, 24, 26, 28, 30, 32, 36, 40, 44, 48]`. -/
theorem c5_theorem :
    (obsState 8 256).inner.into_ordered_values =
      ([0, 32, 64, 96, 128, 160, 192, 224] : List Nat).map some ∧
    (obsState 16 50).inner.into_ordered_values =
      ([0, 4, 8, 12, 16, 20, 22, 24, 26, 28, 30, 32, 36, 40, 44, 48] : List Nat).map some := by
  constructor
  · have hsplit : (256 : Nat) = 128 + 128 := by norm_num
    rw [hsplit, obsState_add 8 128 128, obsState_8_128]
    decide
  · decide

/-! ## Claim C6 — range of the closed-form slot -/

/-- Claim C6, counterexample: at `N = 8` the in-cycle index `j = 12 < 2N` is
"valid" in the claim's sense, yet the closed-form computation produces no slot
at all (usize underflow in `IN_GROUP_BITS - pattern_base_exp`, then division by
zero in `in_loop_index % group_size`); a fortiori it produces no slot in
`[0, N)`. -/
theorem c6_counterexample : closedFormSlot 8 12 = none := by decide

/-! ## Claim C7 — outcomes of `sample` -/

set_option maxRecDepth 40000 in
/-- Claim C7, counterexample: on the 9th observation at `N = 8` the halving
schedule fires (the divisor is doubled from 1 to 2 on this very call), yet
`sample` returns plain `Consumed` — the outcome type `SamplingOutcome`
(src/buf.rs:20-23) has no `ConsumedAndRateReduced` variant at all. -/
theorem c7_counterexample :
    ((obsState 8 8).sample 8 8).2 = SamplingOutcome.Consumed ∧
    ((obsState 8 8).sample 8 8).1.sample_rate.divisor = 2 ∧
    (obsState 8 8).sample_rate.divisor = 1 := by
  refine ⟨by decide, by decide, by decide⟩

set_option maxRecDepth 40000 in
/-- Claim C7, amended: `sample` returns one of exactly two outcomes, `Consumed`
or `Discarded(value)`; it returns `Consumed` precisely when the rate gate
accepts (`(counter + 1) % divisor == 0`), even on calls where the halving
schedule fired, and otherwise hands the value back in `Discarded`. -/
theorem c7_theorem (α : Type) (N : Nat) (s : SamplingReservoir α) (v : α) :
    (((s.sample N v).2 = SamplingOutcome.Consumed) ↔
      (s.sample_rate.counter + 1) % s.sample_rate.divisor = 0) ∧
    ((s.sample N v).2 = SamplingOutcome.Consumed ∨
      (s.sample N v).2 = SamplingOutcome.Discarded v) := by
  by_cases h : (s.sample_rate.counter + 1) % s.sample_rate.divisor = 0
  · simp [SamplingReservoir.sample, SamplingRate.step, h]
  · simp [SamplingReservoir.sample, SamplingRate.step, h]

/-! ## Claim C8 — construction-time validation -/

/-- Claim C8: the construction assertion is `assert!(N.is_power_of_two())`, and
Rust's `usize::is_power_of_two(1)` is `true`, so construction with `N = 1`
*succeeds*, contrary to the claim (and to spec §3, "power of two and N > 1").
The resulting reservoir is unusable: already the second index the driver
produces is `1`, outside the documented range `0..=N-1` of a 1-slot buffer, so
the second `write` indexes out of bounds. -/
theorem c8_theorem :
    RawReservoir.newOk 1 = true ∧ (iterateForward 1 2).2 = [0, 1] ∧ ¬ (1 : Nat) < 1 := by
  refine ⟨by decide, by decide, by decide⟩

/-! ## Claim C9 — slot tags (counterexample) -/

set_option maxRecDepth 40000 in
/-- Claim C9, counterexample: feed `0..17` into a fresh `N = 8` sampler.  The
value 16 is the 17th observation ever presented (GlobalIndex 17 one-indexed, 16
zero-indexed), it is accepted as the 13th write, and lands in slot 2 with tag
13.  The tag is the write ordinal (AcceptedCount), not the GlobalIndex: 13
differs from both 17 and 16. -/
theorem c9_counterexample :
    (obsState 8 17).inner.buf[2]? = some (some (13, 16)) ∧
    (13 : Nat) ≠ 17 ∧ (13 : Nat) ≠ 16 := by
  refine ⟨by decide, by decide, by decide⟩

/-! ## Claim C3 — stateful vs stateless gate (counterexample) -/

set_option maxRecDepth 40000 in
/-- Claim C3, counterexample: at `N = 8` the 9th observation (1-indexed `i = 9`,
the value 8 of the sequential stream) is *accepted* by the stateful gate — the
divisor is still 1 when the decision is made — but the claim's 1-indexed
stateless bit-test rejects it: `bitLen 9 = 4`, `k = 4 - 3 = 1`, and the low bit
of 9 is 1.  The stateless formula matches the code only with 0-indexed
observation counts. -/
theorem c3_counterexample :
    ((obsState 8 8).sample 8 8).2 = SamplingOutcome.Consumed ∧
    statelessAccept 3 9 = false := by
  refine ⟨by decide, by decide⟩



/-! ## Claim C6 — amended general range theorem -/

set_option maxRecDepth 4000 in
/-- Claim C6, amended: for every power of two `N = 2^e` with `N ≥ 16` and every
valid in-cycle index `j < 2N`, the closed-form computation
`pattern_index + pattern_offset * pattern_step` succeeds and yields a slot in
`[0, N)`.  (For `N ∈ {2, 4, 8}` the computation is undefined for the larger
valid `j`: see `c6_counterexample`.) -/
theorem c6_theorem (e j : Nat) (he : 4 ≤ e) (hj : j < 2 ^ (e + 1)) :
    ∃ s, closedFormSlot (2 ^ e) j = some s ∧ s < 2 ^ e := by
  have he1 : 1 ≤ e := by omega
  have hig : IN_GROUP_BITS (2 ^ e) = e - 1 := IN_GROUP_BITS_two_pow e he1
  have hshift : j >>> IN_GROUP_BITS (2 ^ e) = j / 2 ^ (e - 1) := by
    rw [hig, Nat.shiftRight_eq_div_pow]
  have hpbe : j / 2 ^ (e - 1) ≤ 3 := by
    have h4 : 2 ^ (e + 1) = 4 * 2 ^ (e - 1) := by
      rw [show e + 1 = (e - 1) + 2 by omega, Nat.pow_add]
      ring
    have hlt := (Nat.div_lt_iff_lt_mul (Nat.pow_pos (by norm_num : (0:Nat) < 2))).mpr
      (by omega : j < 4 * 2 ^ (e - 1))
    omega
  have hguard1 : ¬ IN_GROUP_BITS (2 ^ e) < j >>> IN_GROUP_BITS (2 ^ e) := by
    rw [hshift, hig]; omega
  simp only [closedFormSlot, pattern_base_exp_for_in_loop_index,
    pattern_base_for_in_loop_index]
  rw [if_neg hguard1, hshift]
  have hpb : (1 : Nat) <<< (j / 2 ^ (e - 1)) = 2 ^ (j / 2 ^ (e - 1)) := by
    rw [Nat.shiftLeft_eq, one_mul]
  have hps : (1 : Nat) <<< (j / 2 ^ (e - 1) + 1) = 2 ^ (j / 2 ^ (e - 1) + 1) := by
    rw [Nat.shiftLeft_eq, one_mul]
  rw [hpb, hps]
  have hgs : 2 ^ e / 2 / 2 ^ (j / 2 ^ (e - 1)) = 2 ^ (e - 1 - j / 2 ^ (e - 1)) := by
    rw [two_pow_div_two e he1, Nat.pow_div (by omega) (by norm_num)]
  rw [hgs, if_neg (Nat.pow_pos (by norm_num : (0:Nat) < 2)).ne']
  refine ⟨_, rfl, ?_⟩
  have hmask : (j >>> (IN_GROUP_BITS (2 ^ e) - j / 2 ^ (e - 1))) &&&
      (2 ^ (j / 2 ^ (e - 1)) - 1) ≤ 2 ^ (j / 2 ^ (e - 1)) - 1 := Nat.and_le_right
  have hA : 1 ≤ 2 ^ (j / 2 ^ (e - 1)) := Nat.one_le_two_pow
  have hC : 1 ≤ 2 ^ (e - 1 - j / 2 ^ (e - 1)) := Nat.one_le_two_pow
  have hmod : j % 2 ^ (e - 1 - j / 2 ^ (e - 1)) ≤ 2 ^ (e - 1 - j / 2 ^ (e - 1)) - 1 := by
    have h9 : 0 < 2 ^ (e - 1 - j / 2 ^ (e - 1)) := Nat.pow_pos (by norm_num)
    have := Nat.mod_lt j h9
    omega
  have hmul : 2 ^ (e - 1 - j / 2 ^ (e - 1)) * 2 ^ (j / 2 ^ (e - 1) + 1) = 2 ^ e := by
    rw [← Nat.pow_add]
    congr 1
    omega
  have hB : 2 ^ (j / 2 ^ (e - 1) + 1) = 2 * 2 ^ (j / 2 ^ (e - 1)) := by
    rw [Nat.pow_succ]; ring
  have h5 : (j % 2 ^ (e - 1 - j / 2 ^ (e - 1))) * 2 ^ (j / 2 ^ (e - 1) + 1) ≤
      2 ^ e - 2 ^ (j / 2 ^ (e - 1) + 1) := by
    have h6 := Nat.mul_le_mul_right (2 ^ (j / 2 ^ (e - 1) + 1)) hmod
    rw [Nat.sub_one_mul, hmul] at h6
    exact h6
  apply Nat.lt_of_le_of_lt (Nat.add_le_add (Nat.add_le_add_left hmask _) h5)
  have hstep : 2 ^ (j / 2 ^ (e - 1) + 1) ≤ 2 ^ e :=
    Nat.pow_le_pow_right (by norm_num) (by omega)
  omega

/-- Claim C6, witness for the amended theorem at `e = 4`, `j = 31`. -/
theorem c6_witness :
    (4 ≤ 4 ∧ 31 < 2 ^ (4 + 1)) ∧ ∃ s, closedFormSlot (2 ^ 4) 31 = some s ∧ s < 2 ^ 4 :=
  ⟨⟨by decide, by decide⟩, c6_theorem 4 31 (by decide) (by decide)⟩

/-! ## Claim C2 — exact reversal of the slot-index generator

The key invariant: in every reachable state of the cyclic regime the triple
`(idx, left_offset, step)` lies inside pattern `p` for some `1 ≤ p ≤ log2 N`:
`step = 2^p`, the group's start `left_offset` lies in `[2^(p-1), 2^p)`, and
`idx` is a slot below `N` congruent to `left_offset` mod `step`.  On such
triples the reverse iterator's transition is a two-sided inverse of the forward
transition. -/

lemma fwd_next_fill (N pos i l st : Nat) (h0 : pos < N) :
    InfinitySamplerIndexer.next N ⟨pos, i, l, st⟩ = (pos, ⟨pos + 1, i, l, st⟩) := by
  simp [InfinitySamplerIndexer.next, h0]

lemma fwd_next_cyc (N pos i l st : Nat) (h0 : ¬ pos < N) :
    InfinitySamplerIndexer.next N ⟨pos, i, l, st⟩ =
      (i, if i = N - 1 then
            (if l = N - 1 then ⟨pos + 1, 1, 1, 2⟩ else ⟨pos + 1, l + 1, l + 1, st * 2⟩)
          else if N ≤ i + st then ⟨pos + 1, l + 1, l + 1, st⟩
          else ⟨pos + 1, i + st, l, st⟩) := by
  simp only [InfinitySamplerIndexer.next, if_neg h0]
  split_ifs <;> rfl

lemma rev_next_fill (N pos i l st : Nat) (h0 : pos < N) :
    ReverseInfinitySamplerIndexer.next N ⟨pos + 1, i, l, st⟩ = some (pos, ⟨pos, i, l, st⟩) := by
  simp [ReverseInfinitySamplerIndexer.next, h0]

lemma rev_next_cyc (N pos i l st : Nat) (h0 : ¬ pos < N) :
    ReverseInfinitySamplerIndexer.next N ⟨pos + 1, i, l, st⟩ =
      (if i = 1 then some (N - 1, ⟨pos, N - 1, N - 1, N⟩)
       else if i = l then
         (if l = st / 2 then
           some (l - 1 + N - st / 2, ⟨pos, l - 1 + N - st / 2, l - 1, st / 2⟩)
         else some (l - 1 + N - st, ⟨pos, l - 1 + N - st, l - 1, st⟩))
       else some (i - st, ⟨pos, i - st, l, st⟩)) := by
  simp only [ReverseInfinitySamplerIndexer.next, if_neg (Nat.succ_ne_zero pos),
    Nat.add_sub_cancel, if_neg h0]
  try split_ifs <;> rfl

lemma two_pow_sub_one_mod (e p : Nat) (hp : p ≤ e) : (2 ^ e - 1) % 2 ^ p = 2 ^ p - 1 := by
  have hep : e - p + p = e := by omega
  have h1 : (2 ^ (e - p) - 1) * 2 ^ p = 2 ^ e - 2 ^ p := by
    rw [Nat.sub_one_mul, ← Nat.pow_add, hep]
  have h2 : 2 ^ p ≤ 2 ^ e := Nat.pow_le_pow_right (by norm_num) hp
  have h3 : 1 ≤ 2 ^ p := Nat.one_le_two_pow
  have h4 : 2 ^ e - 1 = (2 ^ p - 1) + (2 ^ (e - p) - 1) * 2 ^ p := by
    rw [h1]; omega
  rw [h4, Nat.add_mul_mod_self_right, Nat.mod_eq_of_lt (by omega)]

lemma mod_two_pow_top (e p i l : Nat) (hp : p ≤ e) (hl : l < 2 ^ p)
    (hmod : i % 2 ^ p = l) (hi : i < 2 ^ e) (hge : 2 ^ e ≤ i + 2 ^ p) :
    i = 2 ^ e - 2 ^ p + l := by
  have hq0 := Nat.div_add_mod i (2 ^ p)
  rw [hmod] at hq0
  obtain ⟨q, hq⟩ : ∃ q, 2 ^ p * q + l = i := ⟨i / 2 ^ p, hq0⟩
  clear hq0
  have hT : 2 ^ p * 2 ^ (e - p) = 2 ^ e := by
    rw [← Nat.pow_add]; congr 1; omega
  have h2 : 2 ^ p ≤ 2 ^ e := Nat.pow_le_pow_right (by norm_num) hp
  have h3 : 1 ≤ 2 ^ p := Nat.one_le_two_pow
  have hqlt : q < 2 ^ (e - p) := by
    by_contra hc
    push_neg at hc
    have h9 : 2 ^ e ≤ i := by
      calc 2 ^ e = 2 ^ p * 2 ^ (e - p) := hT.symm
      _ ≤ 2 ^ p * q := Nat.mul_le_mul_left _ hc
      _ ≤ i := by omega
    omega
  have hqge : 2 ^ (e - p) ≤ q + 1 := by
    by_contra hc
    push_neg at hc
    have h5 : q + 2 ≤ 2 ^ (e - p) := by omega
    have h6 := Nat.mul_le_mul_left (2 ^ p) h5
    have h7 : 2 ^ p * (q + 2) = 2 ^ p * q + 2 ^ p + 2 ^ p := by ring
    omega
  have hqeq : q = 2 ^ (e - p) - 1 := by omega
  rw [hqeq] at hq
  have h8 : 2 ^ p * (2 ^ (e - p) - 1) = 2 ^ e - 2 ^ p := by
    rw [Nat.mul_sub_one, hT]
  omega

lemma rev_next_of_fwd (e : Nat) (he : 1 ≤ e) (s : InfinitySamplerIndexer)
    (hinv : IdxInv e s) :
    ReverseInfinitySamplerIndexer.next (2 ^ e) ((s.next (2 ^ e)).2.reverse) =
      some ((s.next (2 ^ e)).1, s.reverse) := by
  obtain ⟨pos, i, l, st⟩ := s
  obtain ⟨p, hp1, hpe, hst, hlo1, hlo2, hi, hmod⟩ := hinv
  dsimp only at hst hlo1 hlo2 hi hmod
  have h2p : 2 ≤ 2 ^ p := by
    calc (2 : Nat) = 2 ^ 1 := rfl
    _ ≤ 2 ^ p := Nat.pow_le_pow_right (by norm_num) hp1
  have hpE : 2 ^ p ≤ 2 ^ e := Nat.pow_le_pow_right (by norm_num) hpe
  have hl1 : 1 ≤ l := le_trans Nat.one_le_two_pow hlo1
  by_cases hpos : pos < 2 ^ e
  · rw [fwd_next_fill _ _ _ _ _ hpos]
    dsimp only [InfinitySamplerIndexer.reverse]
    rw [rev_next_fill _ _ _ _ _ hpos]
  · by_cases hA : i = 2 ^ e - 1
    · by_cases hA2 : l = 2 ^ e - 1
      · -- end of the whole loop: forward resets to (1, 1, 2)
        have hstE : st = 2 ^ e := by
          have h1 : 2 ^ e - 1 < 2 ^ p := hA2 ▸ hlo2
          omega
        rw [fwd_next_cyc _ _ _ _ _ hpos, if_pos hA, if_pos hA2]
        dsimp only [InfinitySamplerIndexer.reverse]
        rw [rev_next_cyc _ _ _ _ _ hpos, if_pos rfl, hA, hA2, hstE]
      · -- end of a pattern: forward moves to pattern p + 1
        have hlp : l = 2 ^ p - 1 := by
          rw [← hmod, hA, two_pow_sub_one_mod e p hpe]
        rw [fwd_next_cyc _ _ _ _ _ hpos, if_pos hA, if_neg hA2]
        dsimp only [InfinitySamplerIndexer.reverse]
        rw [rev_next_cyc _ _ _ _ _ hpos]
        rw [if_neg (by omega : ¬ l + 1 = 1), if_pos rfl,
          if_pos (by omega : l + 1 = st * 2 / 2)]
        have e1 : st * 2 / 2 = st := by omega
        have e2 : l + 1 - 1 = l := rfl
        have e3 : l + 2 ^ e - st = i := by omega
        rw [e1, e2, e3]
    · by_cases hC : 2 ^ e ≤ i + st
      · -- end of a group: forward moves to the next group of pattern p
        have hieq : i = 2 ^ e - 2 ^ p + l :=
          mod_two_pow_top e p i l hpe hlo2 hmod hi (by rw [← hst]; exact hC)
        have hlne : l + 1 < 2 ^ p := by
          rcases Nat.lt_or_ge (l + 1) (2 ^ p) with h | h
          · exact h
          · exfalso; apply hA; omega
        have hst2 : st / 2 = 2 ^ (p - 1) := by rw [hst]; exact two_pow_div_two p hp1
        rw [fwd_next_cyc _ _ _ _ _ hpos, if_neg hA, if_pos hC]
        dsimp only [InfinitySamplerIndexer.reverse]
        rw [rev_next_cyc _ _ _ _ _ hpos]
        rw [if_neg (by omega : ¬ l + 1 = 1), if_pos rfl,
          if_neg (by omega : ¬ l + 1 = st / 2)]
        have e2 : l + 1 - 1 = l := rfl
        have e3 : l + 2 ^ e - st = i := by omega
        rw [e2, e3]
      · -- interior of a group: forward adds `step`
        rw [fwd_next_cyc _ _ _ _ _ hpos, if_neg hA, if_neg hC]
        dsimp only [InfinitySamplerIndexer.reverse]
        rw [rev_next_cyc _ _ _ _ _ hpos]
        rw [if_neg (by omega : ¬ i + st = 1), if_neg (by omega : ¬ i + st = l),
          Nat.add_sub_cancel]

lemma IdxInv_next (e : Nat) (he : 1 ≤ e) (s : InfinitySamplerIndexer)
    (hinv : IdxInv e s) : IdxInv e ((s.next (2 ^ e)).2) := by
  obtain ⟨pos, i, l, st⟩ := s
  obtain ⟨p, hp1, hpe, hst, hlo1, hlo2, hi, hmod⟩ := hinv
  dsimp only at hst hlo1 hlo2 hi hmod
  have h2p : 2 ≤ 2 ^ p := by
    calc (2 : Nat) = 2 ^ 1 := rfl
    _ ≤ 2 ^ p := Nat.pow_le_pow_right (by norm_num) hp1
  have hpE : 2 ^ p ≤ 2 ^ e := Nat.pow_le_pow_right (by norm_num) hpe
  have hN2 : 2 ≤ 2 ^ e := le_trans h2p hpE
  have hl1 : 1 ≤ l := le_trans Nat.one_le_two_pow hlo1
  by_cases hpos : pos < 2 ^ e
  · rw [fwd_next_fill _ _ _ _ _ hpos]
    exact ⟨p, hp1, hpe, hst, hlo1, hlo2, hi, hmod⟩
  · by_cases hA : i = 2 ^ e - 1
    · by_cases hA2 : l = 2 ^ e - 1
      · rw [fwd_next_cyc _ _ _ _ _ hpos, if_pos hA, if_pos hA2]
        refine ⟨1, le_rfl, he, rfl, ?_, ?_, ?_, ?_⟩
        · show 2 ^ (1 - 1) ≤ 1
          norm_num
        · show (1 : Nat) < 2 ^ 1
          norm_num
        · show (1 : Nat) < 2 ^ e
          omega
        · show (1 : Nat) % 2 ^ 1 = 1
          norm_num
      · have hlp : l = 2 ^ p - 1 := by
          rw [← hmod, hA, two_pow_sub_one_mod e p hpe]
        have hplt : p < e := by
          rcases Nat.lt_or_ge p e with h | h
          · exact h
          · exfalso
            apply hA2
            have hpeq : p = e := by omega
            subst hpeq
            omega
        have hpsucc : 2 ^ p < 2 ^ (p + 1) := Nat.pow_lt_pow_right (by norm_num) (by omega)
        have hpem : 2 ^ (p + 1) ≤ 2 ^ e := Nat.pow_le_pow_right (by norm_num) (by omega)
        rw [fwd_next_cyc _ _ _ _ _ hpos, if_pos hA, if_neg hA2]
        refine ⟨p + 1, by omega, by omega, ?_, ?_, ?_, ?_, ?_⟩
        · show st * 2 = 2 ^ (p + 1)
          rw [hst, Nat.pow_succ]
        · show 2 ^ (p + 1 - 1) ≤ l + 1
          show 2 ^ p ≤ l + 1
          omega
        · show l + 1 < 2 ^ (p + 1)
          omega
        · show l + 1 < 2 ^ e
          omega
        · show (l + 1) % 2 ^ (p + 1) = l + 1
          rw [Nat.mod_eq_of_lt (by omega)]
    · by_cases hC : 2 ^ e ≤ i + st
      · have hieq : i = 2 ^ e - 2 ^ p + l :=
          mod_two_pow_top e p i l hpe hlo2 hmod hi (by rw [← hst]; exact hC)
        have hlne : l + 1 < 2 ^ p := by
          rcases Nat.lt_or_ge (l + 1) (2 ^ p) with h | h
          · exact h
          · exfalso; apply hA; omega
        rw [fwd_next_cyc _ _ _ _ _ hpos, if_neg hA, if_pos hC]
        refine ⟨p, hp1, hpe, hst, ?_, ?_, ?_, ?_⟩
        · show 2 ^ (p - 1) ≤ l + 1
          omega
        · show l + 1 < 2 ^ p
          omega
        · show l + 1 < 2 ^ e
          omega
        · show (l + 1) % 2 ^ p = l + 1
          rw [Nat.mod_eq_of_lt (by omega)]
      · rw [fwd_next_cyc _ _ _ _ _ hpos, if_neg hA, if_neg hC]
        refine ⟨p, hp1, hpe, hst, hlo1, hlo2, ?_, ?_⟩
        · show i + st < 2 ^ e
          omega
        · show (i + st) % 2 ^ p = l
          rw [hst, Nat.add_mod_right]
          exact hmod

lemma next_iterator_pos (N : Nat) (s : InfinitySamplerIndexer) :
    ((s.next N).2).iterator_pos = s.iterator_pos + 1 := by
  obtain ⟨pos, i, l, st⟩ := s
  by_cases hpos : pos < N
  · rw [fwd_next_fill _ _ _ _ _ hpos]
  · rw [fwd_next_cyc _ _ _ _ _ hpos]
    split_ifs <;> rfl

lemma IdxInv_new (e : Nat) (he : 1 ≤ e) : IdxInv e InfinitySamplerIndexer.new := by
  have hN2 : 2 ≤ 2 ^ e := by
    calc (2 : Nat) = 2 ^ 1 := rfl
    _ ≤ 2 ^ e := Nat.pow_le_pow_right (by norm_num) he
  refine ⟨1, le_rfl, he, rfl, by decide, by decide, ?_, by decide⟩
  show (1 : Nat) < 2 ^ e
  omega

lemma IdxInv_iterateForward (e : Nat) (he : 1 ≤ e) :
    ∀ k, IdxInv e (iterateForward (2 ^ e) k).1 := by
  intro k
  induction k with
  | zero => exact IdxInv_new e he
  | succ k ih => exact IdxInv_next e he _ ih

lemma revRun_succ (N fuel : Nat) (s : ReverseInfinitySamplerIndexer)
    (v : Nat) (s' : ReverseInfinitySamplerIndexer)
    (h : ReverseInfinitySamplerIndexer.next N s = some (v, s')) :
    revRun N (fuel + 1) s = (v :: (revRun N fuel s').1, (revRun N fuel s').2) := by
  simp [revRun, h]

lemma revRun_iterateForward (e : Nat) (he : 1 ≤ e) :
    ∀ k, revRun (2 ^ e) k ((iterateForward (2 ^ e) k).1.reverse) =
      (((iterateForward (2 ^ e) k).2).reverse, InfinitySamplerIndexer.new.reverse) := by
  intro k
  induction k with
  | zero => rfl
  | succ k ih =>
    have hkey := rev_next_of_fwd e he (iterateForward (2 ^ e) k).1
      (IdxInv_iterateForward e he k)
    show revRun (2 ^ e) (k + 1) (((iterateForward (2 ^ e) k).1.next (2 ^ e)).2.reverse) = _
    rw [revRun_succ _ _ _ _ _ hkey, ih]
    show (_ :: ((iterateForward (2 ^ e) k).2).reverse, _) =
      ((((iterateForward (2 ^ e) k).2) ++ [((iterateForward (2 ^ e) k).1.next (2 ^ e)).1]).reverse,
        InfinitySamplerIndexer.new.reverse)
    rw [List.reverse_append]
    rfl

/-- Claim C2: for every power of two `N = 2^e` (`e ≥ 1`) and every `k ≥ 1`,
reversing the indexer after `k` forward steps and driving the reverse iterator
`k` steps reproduces the forward-produced slot sequence in exact reverse order
(its first value is the most recent forward value, its last is the value of
position 0), and the reverse iterator is then exhausted: its next call returns
nothing. -/
theorem c2_theorem (e k : Nat) (he : 1 ≤ e) (hk : 1 ≤ k) :
    (revRun (2 ^ e) k ((iterateForward (2 ^ e) k).1.reverse)).1 =
      ((iterateForward (2 ^ e) k).2).reverse ∧
    ReverseInfinitySamplerIndexer.next (2 ^ e)
      (revRun (2 ^ e) k ((iterateForward (2 ^ e) k).1.reverse)).2 = none := by
  have h := revRun_iterateForward e he k
  rw [h]
  exact ⟨rfl, rfl⟩

/-! ## Claim C3 — machinery: closed-form state of the sampling gate -/

lemma bitLen_mono {m n : Nat} (h : m ≤ n) : bitLen m ≤ bitLen n :=
  (bitLen_le_iff m (bitLen n)).mpr (lt_of_le_of_lt h (lt_two_pow_bitLen n))

lemma bitLen_ge_succ (e v : Nat) (h : 2 ^ e ≤ v) : e + 1 ≤ bitLen v := by
  by_contra hc
  have := (bitLen_le_iff v e).mp (by omega)
  omega

lemma counter_mod_succ (v d : Nat) (hv : 1 ≤ v) : ((v - 1) % d + 1) % d = v % d := by
  rw [Nat.mod_add_mod]
  congr 1
  omega

lemma sample_snd (α : Type) (N : Nat) (s : SamplingReservoir α) (v : α) :
    (s.sample N v).2 =
      if (s.sample_rate.counter + 1) % s.sample_rate.divisor = 0 then
        SamplingOutcome.Consumed
      else SamplingOutcome.Discarded v := by
  by_cases h : (s.sample_rate.counter + 1) % s.sample_rate.divisor = 0 <;>
    simp [SamplingReservoir.sample, SamplingRate.step, h]

lemma sample_fst_rejected (α : Type) (N : Nat) (s : SamplingReservoir α) (v : α)
    (h : ¬ (s.sample_rate.counter + 1) % s.sample_rate.divisor = 0) :
    (s.sample N v).1 = { s with sample_rate :=
      { divisor := s.sample_rate.divisor,
        counter := (s.sample_rate.counter + 1) % s.sample_rate.divisor } } := by
  simp [SamplingReservoir.sample, SamplingRate.step, h]

lemma sample_fst_accepted (α : Type) (N : Nat) (s : SamplingReservoir α) (v : α)
    (h : (s.sample_rate.counter + 1) % s.sample_rate.divisor = 0) :
    (s.sample N v).1 = { inner := s.inner.write N v, sample_rate :=
      if N ≤ s.inner.iter.iterator_pos ∧ (s.inner.iter.iterator_pos - N) % (N / 2) = 0 then
        { divisor := s.sample_rate.divisor * 2,
          counter := (s.sample_rate.counter + 1) % s.sample_rate.divisor }
      else
        { divisor := s.sample_rate.divisor,
          counter := (s.sample_rate.counter + 1) % s.sample_rate.divisor } } := by
  simp only [SamplingReservoir.sample, SamplingRate.step, SamplingRate.div, h, beq_self_eq_true,
    if_true]
  try split_ifs <;> rfl

lemma write_iter_pos (α : Type) (N : Nat) (r : RawReservoir α) (v : α) :
    ((r.write N v).iter).iterator_pos = r.iter.iterator_pos + 1 := by
  show ((r.iter.next N).2).iterator_pos = r.iter.iterator_pos + 1
  exact next_iterator_pos N r.iter

lemma Dexp_zero (e : Nat) : Dexp e 0 = 0 := by
  simp [Dexp, bitLen, bitLenGo]

lemma Dexp_one (e : Nat) : Dexp e 1 = 0 := by
  simp [Dexp, bitLen, bitLenGo]

lemma Dexp_le_of_le (e v : Nat) (h : bitLen v ≤ e) : Dexp e v = 0 := by
  have h1 : bitLen (v - 1) ≤ e := le_trans (bitLen_mono (by omega)) h
  rw [Dexp]
  omega

/-- The gate decision agrees whether the exponent is taken from `bitLen (v-1)`
(the divisor actually held in the state) or from `bitLen v` (the stateless
test): the two differ only at powers of two, which both accept. -/
lemma Dexp_decision (e v : Nat) (he : 1 ≤ e) :
    (v % 2 ^ Dexp e v = 0) ↔ (v % 2 ^ (bitLen v - e) = 0) := by
  rcases Nat.eq_zero_or_pos v with hv | hv
  · subst hv; simp
  by_cases hbe : bitLen v ≤ e
  · rw [Dexp_le_of_le e v hbe, Nat.sub_eq_zero_of_le hbe]
  · push_neg at hbe
    by_cases hpow : v = 2 ^ (bitLen v - 1)
    · have hb1 : 1 ≤ bitLen v := bitLen_pos v hv
      have hD : Dexp e v = bitLen v - 1 - e := by
        rw [Dexp]
        congr 1
        set b := bitLen v with hb
        rw [hpow, bitLen_two_pow_sub_one]
      have hdvd1 : (2 : Nat) ^ (bitLen v - 1 - e) ∣ v := by
        conv_rhs => rw [hpow]
        exact pow_dvd_pow 2 (by omega)
      have hdvd2 : (2 : Nat) ^ (bitLen v - e) ∣ v := by
        conv_rhs => rw [hpow]
        exact pow_dvd_pow 2 (by omega)
      simp [hD, Nat.eq_zero_of_dvd_of_lt, Nat.mod_eq_zero_of_dvd hdvd1,
        Nat.mod_eq_zero_of_dvd hdvd2]
    · rw [Dexp, bitLen_pred v hv hpow]

lemma Dexp_succ_fire (e v : Nat) (he : 1 ≤ e) (h1 : 2 ^ e ≤ v)
    (h2 : v = 2 ^ (bitLen v - 1)) : Dexp e (v + 1) = Dexp e v + 1 := by
  have hv : 1 ≤ v := le_trans Nat.one_le_two_pow h1
  have hb : e + 1 ≤ bitLen v := bitLen_ge_succ e v h1
  rw [Dexp, Dexp, Nat.add_sub_cancel]
  set b := bitLen v with hbdef
  have h3 : bitLen (v - 1) = b - 1 := by
    rw [h2, bitLen_two_pow_sub_one]
  rw [h3]
  omega

lemma Dexp_succ_same (e v : Nat) (he : 1 ≤ e)
    (hnf : ¬ (2 ^ e ≤ v ∧ v = 2 ^ (bitLen v - 1))) : Dexp e (v + 1) = Dexp e v := by
  rcases Nat.eq_zero_or_pos v with hv | hv
  · subst hv; rfl
  by_cases hbe : bitLen v ≤ e
  · have h1 : bitLen (v - 1) ≤ e := le_trans (bitLen_mono (by omega)) hbe
    rw [Dexp, Dexp, Nat.add_sub_cancel]
    omega
  · push_neg at hbe
    have hpow : ¬ v = 2 ^ (bitLen v - 1) := by
      intro hc
      apply hnf
      refine ⟨?_, hc⟩
      rw [hc]
      exact Nat.pow_le_pow_right (by norm_num) (by omega)
    rw [Dexp, Dexp, Nat.add_sub_cancel, bitLen_pred v hv hpow]

lemma Pclosed_zero (e : Nat) : Pclosed e 0 = 0 := by
  rw [Pclosed, if_pos (Nat.pow_pos (by norm_num))]

lemma Pclosed_lt (e v : Nat) (h : v < 2 ^ e) : Pclosed e v = v := by
  rw [Pclosed, if_pos h]

lemma Pclosed_ge (e v : Nat) (h : 2 ^ e ≤ v) : 2 ^ e ≤ Pclosed e v := by
  rw [Pclosed, if_neg (by omega)]
  exact le_trans (Nat.le_add_right _ _) (Nat.le_add_right _ _)

/-- Stepping the closed-form write count: it grows by one exactly at the
observations the stateless test accepts. -/
lemma Pclosed_succ (e v : Nat) (he : 1 ≤ e) :
    Pclosed e (v + 1) = Pclosed e v + (if v % 2 ^ (bitLen v - e) = 0 then 1 else 0) := by
  by_cases hv1 : v + 1 < 2 ^ e
  · have hv : v < 2 ^ e := by omega
    have hbe : bitLen v ≤ e := (bitLen_le_iff v e).mpr hv
    rw [Pclosed_lt e _ hv1, Pclosed_lt e _ hv, Nat.sub_eq_zero_of_le hbe]
    simp [Nat.mod_one]
  · by_cases hveq : v + 1 = 2 ^ e
    · have hv : v < 2 ^ e := by omega
      have hbe : bitLen v ≤ e := (bitLen_le_iff v e).mpr hv
      rw [Pclosed_lt e _ hv, Nat.sub_eq_zero_of_le hbe]
      rw [Pclosed, if_neg (by omega), hveq, bitLen_two_pow]
      have h1 : e + 1 - e = 1 := by omega
      have h2 : e + 1 - 1 = e := by omega
      rw [h1, h2]
      norm_num [Nat.mod_one]
      omega
    · -- v ≥ 2^e; both sides in the cyclic regime
      have hv : 2 ^ e ≤ v := by omega
      have hb : e + 1 ≤ bitLen v := bitLen_ge_succ e v hv
      have hvpos : 1 ≤ v := le_trans Nat.one_le_two_pow hv
      set b := bitLen v with hbdef
      have hBle : 2 ^ (b - 1) ≤ v := two_pow_pred_bitLen_le v hvpos
      have hvlt : v < 2 ^ b := lt_two_pow_bitLen v
      have hq1 : 1 ≤ 2 ^ (b - e) := Nat.one_le_two_pow
      have hq2 : 2 ≤ 2 ^ (b - e) := by
        calc (2 : Nat) = 2 ^ 1 := rfl
        _ ≤ 2 ^ (b - e) := Nat.pow_le_pow_right (by norm_num) (by omega)
      have hsplit : 2 ^ (b - e) * 2 ^ (e - 1) = 2 ^ (b - 1) := by
        rw [← Nat.pow_add]
        congr 1
        omega
      by_cases hc1 : v + 1 = 2 ^ (bitLen (v + 1) - 1)
      · -- v + 1 starts a new block: v = 2^b - 1
        have hb1 : bitLen (v + 1) = b + 1 := by
          have hmono : b ≤ bitLen (v + 1) := bitLen_mono (by omega)
          rcases Nat.lt_or_ge b (bitLen (v + 1)) with h | h
          · have hup : v + 1 < 2 ^ (b + 1) := by
              have h2 : 2 ^ b ≤ 2 ^ (b + 1) := Nat.pow_le_pow_right (by norm_num) (by omega)
              omega
            have := (bitLen_le_iff (v + 1) (b + 1)).mpr hup
            omega
          · exfalso
            have heq : bitLen (v + 1) = b := by omega
            have hple := two_pow_pred_bitLen_le (v + 1) (by omega)
            rw [heq] at hc1
            omega
        have hveq1 : v + 1 = 2 ^ b := by
          rw [hb1, Nat.add_sub_cancel] at hc1
          exact hc1
        have hbit : ¬ v % 2 ^ (b - e) = 0 := by
          rw [show v = 2 ^ b - 1 by omega, two_pow_sub_one_mod b (b - e) (by omega)]
          omega
        rw [if_neg hbit, Nat.add_zero]
        have hLHS : Pclosed e (v + 1) = 2 ^ e + (b - e) * 2 ^ (e - 1) := by
          rw [Pclosed, if_neg (by omega), hb1]
          have h1 : b + 1 - e - 1 = b - e := by omega
          have h2 : b + 1 - 1 = b := by omega
          have h3 : v + 1 - 2 ^ b = 0 := by omega
          have h4 : (1 : Nat) ≤ 2 ^ (b + 1 - e) := Nat.one_le_two_pow
          rw [h1, h2, h3, Nat.zero_add, Nat.div_eq_of_lt (by omega), Nat.add_zero]
        have hRHS : Pclosed e v = 2 ^ e + (b - e - 1) * 2 ^ (e - 1) + 2 ^ (e - 1) := by
          rw [Pclosed, if_neg (by omega)]
          rw [← hbdef]
          have hnum : v - 2 ^ (b - 1) + (2 ^ (b - e) - 1) =
              (2 ^ (b - e) - 2) + 2 ^ (b - e) * 2 ^ (e - 1) := by
            have hdd : 2 ^ (b - 1) * 2 = 2 ^ b := by
              rw [← Nat.pow_succ]
              congr 1
              omega
            omega
          rw [hnum, Nat.add_mul_div_left _ _ (by omega), Nat.div_eq_of_lt (by omega),
            Nat.zero_add]
        rw [hLHS, hRHS]
        have hprod : (b - e - 1) * 2 ^ (e - 1) + 2 ^ (e - 1) = (b - e) * 2 ^ (e - 1) := by
          rw [Nat.sub_one_mul]
          have hle : 2 ^ (e - 1) ≤ (b - e) * 2 ^ (e - 1) :=
            Nat.le_mul_of_pos_left _ (by omega)
          omega
        omega
      · -- v + 1 stays inside the block: bitLen (v+1) = b
        have hbb : bitLen (v + 1) = b := by
          have := bitLen_pred (v + 1) (by omega) hc1
          rw [Nat.add_sub_cancel] at this
          omega
        have hiff : (2 ^ (b - e) ∣ v - 2 ^ (b - 1) + (2 ^ (b - e) - 1) + 1) ↔
            (v % 2 ^ (b - e) = 0) := by
          have h1 : v - 2 ^ (b - 1) + (2 ^ (b - e) - 1) + 1 = (v - 2 ^ (b - 1)) + 2 ^ (b - e) := by
            omega
          rw [h1, Nat.dvd_add_self_right]
          have hqB : 2 ^ (b - e) ∣ 2 ^ (b - 1) := pow_dvd_pow 2 (by omega)
          constructor
          · intro h
            have h2 : 2 ^ (b - e) ∣ v := by
              have := Nat.dvd_add h hqB
              rwa [Nat.sub_add_cancel hBle] at this
            exact Nat.mod_eq_zero_of_dvd h2
          · intro h
            exact Nat.dvd_sub' (Nat.dvd_of_mod_eq_zero h) hqB
        rw [Pclosed, Pclosed, if_neg (by omega), if_neg (by omega), hbb, ← hbdef]
        have harg : v + 1 - 2 ^ (b - 1) + (2 ^ (b - e) - 1) =
            v - 2 ^ (b - 1) + (2 ^ (b - e) - 1) + 1 := by omega
        rw [harg, Nat.succ_div]
        by_cases hv2 : v % 2 ^ (b - e) = 0
        · rw [if_pos hv2, if_pos (hiff.mpr hv2)]
          ring
        · rw [if_neg hv2, if_neg (fun hc => hv2 (hiff.mp hc))]
          ring

/-- At an accepted observation, the code's halving condition (stated on the
write count) fires exactly at the block starts, i.e. when `v` is a power of two
with `v ≥ N`. -/
lemma fire_iff (e v : Nat) (he : 1 ≤ e) (hacc : v % 2 ^ (bitLen v - e) = 0) :
    (2 ^ e ≤ Pclosed e v ∧ (Pclosed e v - 2 ^ e) % 2 ^ (e - 1) = 0) ↔
      (2 ^ e ≤ v ∧ v = 2 ^ (bitLen v - 1)) := by
  by_cases hv : v < 2 ^ e
  · rw [Pclosed_lt e v hv]
    constructor
    · rintro ⟨h1, _⟩
      omega
    · rintro ⟨h1, _⟩
      omega
  · push_neg at hv
    have hb : e + 1 ≤ bitLen v := bitLen_ge_succ e v hv
    have hvpos : 1 ≤ v := le_trans Nat.one_le_two_pow hv
    set b := bitLen v with hbdef
    have hBle : 2 ^ (b - 1) ≤ v := two_pow_pred_bitLen_le v hvpos
    have hvlt : v < 2 ^ b := lt_two_pow_bitLen v
    have hq1 : (1 : Nat) ≤ 2 ^ (b - e) := Nat.one_le_two_pow
    have hE1 : (1 : Nat) ≤ 2 ^ (e - 1) := Nat.one_le_two_pow
    have hsplit : 2 ^ (b - e) * 2 ^ (e - 1) = 2 ^ (b - 1) := by
      rw [← Nat.pow_add]
      congr 1
      omega
    obtain ⟨t, ht⟩ : 2 ^ (b - e) ∣ v - 2 ^ (b - 1) :=
      Nat.dvd_sub' (Nat.dvd_of_mod_eq_zero hacc) (pow_dvd_pow 2 (by omega))
    have hdd : 2 ^ (b - 1) * 2 = 2 ^ b := by
      rw [← Nat.pow_succ]
      congr 1
      omega
    have htlt : t < 2 ^ (e - 1) := by
      by_contra hc
      push_neg at hc
      have h5 : 2 ^ (b - e) * 2 ^ (e - 1) ≤ 2 ^ (b - e) * t := Nat.mul_le_mul_left _ hc
      omega
    have hdiveq : (v - 2 ^ (b - 1) + (2 ^ (b - e) - 1)) / 2 ^ (b - e) = t := by
      have hnum2 : v - 2 ^ (b - 1) + (2 ^ (b - e) - 1) =
          (2 ^ (b - e) - 1) + 2 ^ (b - e) * t := by omega
      rw [hnum2, Nat.add_mul_div_left _ _ (by omega), Nat.div_eq_of_lt (by omega),
        Nat.zero_add]
    have hP : Pclosed e v = 2 ^ e + (b - e - 1) * 2 ^ (e - 1) + t := by
      rw [Pclosed, if_neg (by omega), ← hbdef, hdiveq]
    rw [hP]
    have hmod2 : (2 ^ e + (b - e - 1) * 2 ^ (e - 1) + t - 2 ^ e) % 2 ^ (e - 1) = t := by
      have h6 : 2 ^ e + (b - e - 1) * 2 ^ (e - 1) + t - 2 ^ e =
          t + (b - e - 1) * 2 ^ (e - 1) := by omega
      rw [h6, Nat.add_mul_mod_self_right, Nat.mod_eq_of_lt htlt]
    rw [hmod2]
    constructor
    · rintro ⟨_, h7⟩
      refine ⟨hv, ?_⟩
      rw [h7, Nat.mul_zero] at ht
      omega
    · rintro ⟨_, h8⟩
      refine ⟨le_trans (Nat.le_add_right _ _) (Nat.le_add_right _ _), ?_⟩
      have h9 : v - 2 ^ (b - 1) = 0 := by omega
      rw [h9] at ht
      rcases Nat.mul_eq_zero.mp ht.symm with h10 | h10
      · omega
      · exact h10

lemma Dexp_pow (e v : Nat) (hv : 1 ≤ v) (hpow : v = 2 ^ (bitLen v - 1)) :
    Dexp e v = bitLen v - 1 - e := by
  rw [Dexp]
  congr 1
  set b := bitLen v with hb
  rw [hpow, bitLen_two_pow_sub_one]

lemma accepted_of_pow (e v : Nat) (hv : 1 ≤ v) (hpow : v = 2 ^ (bitLen v - 1)) :
    v % 2 ^ Dexp e v = 0 := by
  rw [Dexp_pow e v hv hpow]
  apply Nat.mod_eq_zero_of_dvd
  conv_rhs => rw [hpow]
  exact pow_dvd_pow 2 (by omega)

lemma obsState_succ (N v : Nat) : obsState N (v + 1) = ((obsState N v).sample N v).1 := rfl

/-- The closed-form description of the gate state of a sequential run on
`N = 2^e`: before the `v`-th (0-indexed) observation, the divisor is
`2 ^ Dexp e v`, the counter is `(v-1) mod divisor`, and `Pclosed e v` values
have been written. -/
lemma gate_state (e : Nat) (he : 1 ≤ e) (v : Nat) :
    (obsState (2 ^ e) v).sample_rate.divisor = 2 ^ Dexp e v ∧
    (obsState (2 ^ e) v).sample_rate.counter = (v - 1) % 2 ^ Dexp e v ∧
    (obsState (2 ^ e) v).inner.iter.iterator_pos = Pclosed e v := by
  induction v with
  | zero =>
    refine ⟨?_, ?_, ?_⟩
    · show (1 : Nat) = 2 ^ Dexp e 0
      rw [Dexp_zero]
      rfl
    · show (0 : Nat) = (0 - 1) % 2 ^ Dexp e 0
      rw [Dexp_zero]
      rfl
    · show (0 : Nat) = Pclosed e 0
      rw [Pclosed_zero]
  | succ v ih =>
    obtain ⟨ihd, ihc, ihp⟩ := ih
    have hdec : (((obsState (2 ^ e) v).sample_rate.counter + 1) %
        (obsState (2 ^ e) v).sample_rate.divisor = 0) ↔ v % 2 ^ Dexp e v = 0 := by
      rw [ihc, ihd]
      rcases Nat.eq_zero_or_pos v with hv0 | hv0
      · subst hv0
        rw [Dexp_zero]
        simp
      · rw [counter_mod_succ v _ hv0]
    by_cases hacc : v % 2 ^ Dexp e v = 0
    · -- accepted observation
      have hacc2 : v % 2 ^ (bitLen v - e) = 0 := (Dexp_decision e v he).mp hacc
      have hcond := sample_fst_accepted Nat (2 ^ e) (obsState (2 ^ e) v) v (hdec.mpr hacc)
      have hfire2 : ((2 ^ e) ≤ (obsState (2 ^ e) v).inner.iter.iterator_pos ∧
          ((obsState (2 ^ e) v).inner.iter.iterator_pos - 2 ^ e) % (2 ^ e / 2) = 0) ↔
          (2 ^ e ≤ v ∧ v = 2 ^ (bitLen v - 1)) := by
        rw [ihp, two_pow_div_two e he]
        exact fire_iff e v he hacc2
      by_cases hfire : 2 ^ e ≤ v ∧ v = 2 ^ (bitLen v - 1)
      · have hvpos : 1 ≤ v := le_trans Nat.one_le_two_pow hfire.1
        have hcnd := hfire2.mpr hfire
        refine ⟨?_, ?_, ?_⟩
        · rw [obsState_succ, hcond]
          dsimp only
          rw [if_pos hcnd]
          dsimp only
          rw [ihd, Dexp_succ_fire e v he hfire.1 hfire.2, Nat.pow_succ]
        · rw [obsState_succ, hcond]
          dsimp only
          rw [if_pos hcnd]
          dsimp only
          rw [ihc, ihd, counter_mod_succ v _ hvpos, hacc]
          have hR : (v + 1 - 1) % 2 ^ Dexp e (v + 1) = 0 := by
            rw [Nat.add_sub_cancel, Dexp, Nat.add_sub_cancel]
            exact hacc2
          exact hR.symm
        · rw [obsState_succ, hcond]
          dsimp only
          rw [write_iter_pos, ihp, Pclosed_succ e v he, if_pos hacc2]
      · have hcnd : ¬ ((2 ^ e) ≤ (obsState (2 ^ e) v).inner.iter.iterator_pos ∧
            ((obsState (2 ^ e) v).inner.iter.iterator_pos - 2 ^ e) % (2 ^ e / 2) = 0) :=
          fun hc => hfire (hfire2.mp hc)
        have hDsame := Dexp_succ_same e v he hfire
        refine ⟨?_, ?_, ?_⟩
        · rw [obsState_succ, hcond]
          dsimp only
          rw [if_neg hcnd]
          dsimp only
          rw [ihd, hDsame]
        · rw [obsState_succ, hcond]
          dsimp only
          rw [if_neg hcnd]
          dsimp only
          rw [ihc, ihd, Nat.add_sub_cancel, hDsame]
          rcases Nat.eq_zero_or_pos v with hv0 | hv0
          · subst hv0
            rw [Dexp_zero]
            simp
          · rw [counter_mod_succ v _ hv0]
        · rw [obsState_succ, hcond]
          dsimp only
          rw [write_iter_pos, ihp, Pclosed_succ e v he, if_pos hacc2]
    · -- rejected observation
      have hvpos : 1 ≤ v := by
        rcases Nat.eq_zero_or_pos v with hv0 | hv0
        · exfalso
          apply hacc
          subst hv0
          rw [Dexp_zero]
          simp
        · exact hv0
      have hacc2 : ¬ v % 2 ^ (bitLen v - e) = 0 :=
        fun hc => hacc ((Dexp_decision e v he).mpr hc)
      have hnf : ¬ (2 ^ e ≤ v ∧ v = 2 ^ (bitLen v - 1)) := by
        rintro ⟨h1, h2⟩
        exact hacc (accepted_of_pow e v hvpos h2)
      have hcond := sample_fst_rejected Nat (2 ^ e) (obsState (2 ^ e) v) v
        (fun hc => hacc (hdec.mp hc))
      have hDsame := Dexp_succ_same e v he hnf
      refine ⟨?_, ?_, ?_⟩
      · rw [obsState_succ, hcond]
        dsimp only
        rw [ihd, hDsame]
      · rw [obsState_succ, hcond]
        dsimp only
        rw [ihc, ihd, Nat.add_sub_cancel, hDsame, counter_mod_succ v _ hvpos]
      · rw [obsState_succ, hcond]
        dsimp only
        rw [ihp, Pclosed_succ e v he, if_neg hacc2, Nat.add_zero]

/-- Claim C2, witness at `e = 3` (`N = 8`), `k = 20`. -/
theorem c2_witness :
    ((1 ≤ 3 ∧ 1 ≤ 20) ∧
    ((revRun (2 ^ 3) 20 ((iterateForward (2 ^ 3) 20).1.reverse)).1 =
      ((iterateForward (2 ^ 3) 20).2).reverse ∧
    ReverseInfinitySamplerIndexer.next (2 ^ 3)
      (revRun (2 ^ 3) 20 ((iterateForward (2 ^ 3) 20).1.reverse)).2 = none)) :=
  ⟨⟨by decide, by decide⟩, c2_theorem 3 20 (by decide) (by decide)⟩

lemma sample_consumed_iff (α : Type) (N : Nat) (s : SamplingReservoir α) (v : α) :
    ((s.sample N v).2 = SamplingOutcome.Consumed) ↔
      (s.sample_rate.counter + 1) % s.sample_rate.divisor = 0 := by
  rw [sample_snd]
  by_cases h : (s.sample_rate.counter + 1) % s.sample_rate.divisor = 0 <;> simp [h]

/-- Claim C3, amended: for every power of two `N = 2^e` (`e ≥ 1`) and every
0-indexed observation index `v` of a sequential run, the stateful gate accepts
the observation exactly when the stateless bit-test does at index `v`: with
`b = bitLen v` and `k = max (b - e) 0`, accept iff the low `k` bits of `v` are
all zero.  (With the original claim's 1-indexed count the test disagrees with
the code: see `c3_counterexample`.) -/
theorem c3_theorem (e v : Nat) (he : 1 ≤ e) :
    (((obsState (2 ^ e) v).sample (2 ^ e) v).2 = SamplingOutcome.Consumed) ↔
      statelessAccept e v = true := by
  obtain ⟨ihd, ihc, _⟩ := gate_state e he v
  rw [sample_consumed_iff, ihc, ihd]
  have h1 : (((v - 1) % 2 ^ Dexp e v + 1) % 2 ^ Dexp e v = 0) ↔ v % 2 ^ Dexp e v = 0 := by
    rcases Nat.eq_zero_or_pos v with hv0 | hv0
    · subst hv0
      rw [Dexp_zero]
      simp
    · rw [counter_mod_succ v _ hv0]
  rw [h1, Dexp_decision e v he]
  simp [statelessAccept]

/-- Claim C3, witness for the amended theorem at `e = 3`, `v = 5`. -/
theorem c3_witness :
    (1 ≤ 3) ∧
      ((((obsState (2 ^ 3) 5).sample (2 ^ 3) 5).2 = SamplingOutcome.Consumed) ↔
        statelessAccept 3 5 = true) :=
  ⟨by decide, c3_theorem 3 5 (by decide)⟩

/-! ## Claim C4 — fill level -/

lemma write_fill_level (α : Type) (N : Nat) (r : RawReservoir α) (v : α) :
    (r.write N v).fill_level = min r.fill_level (N - 1) + 1 := rfl

lemma fill_min (e : Nat) (he : 1 ≤ e) (v : Nat) :
    (obsState (2 ^ e) v).inner.fill_level =
      min ((obsState (2 ^ e) v).inner.iter.iterator_pos) (2 ^ e) := by
  induction v with
  | zero =>
    show (0 : Nat) = min 0 (2 ^ e)
    simp
  | succ v ih =>
    rw [obsState_succ]
    by_cases h : ((obsState (2 ^ e) v).sample_rate.counter + 1) %
        (obsState (2 ^ e) v).sample_rate.divisor = 0
    · rw [sample_fst_accepted Nat _ _ _ h]
      dsimp only
      rw [write_fill_level, write_iter_pos, ih]
      have h2 : (1 : Nat) ≤ 2 ^ e := Nat.one_le_two_pow
      omega
    · rw [sample_fst_rejected Nat _ _ _ h]
      dsimp only
      exact ih

/-- Claim C4: for every power of two `N = 2^e` (`e ≥ 1`) and every stream
length `L`, feeding the `L` sequential values `0..L` into a fresh
`SamplingReservoir` leaves `len() = min L N`. -/
theorem c4_theorem (e L : Nat) (he : 1 ≤ e) :
    (obsState (2 ^ e) L).len = min L (2 ^ e) := by
  have hfill := fill_min e he L
  obtain ⟨_, _, hp⟩ := gate_state e he L
  show (obsState (2 ^ e) L).inner.fill_level = min L (2 ^ e)
  rw [hfill, hp]
  by_cases h : L < 2 ^ e
  · rw [Pclosed_lt e L h]
  · push_neg at h
    have h1 := Pclosed_ge e L h
    omega

/-- Claim C4, witness at `e = 3`, `L = 20`. -/
theorem c4_witness : (1 ≤ 3) ∧ (obsState (2 ^ 3) 20).len = min 20 (2 ^ 3) :=
  ⟨by decide, c4_theorem 3 20 (by decide)⟩

/-! ## Claim C10 — the divisor is always a power of two -/

lemma divisor_pow_sample (α : Type) (N : Nat) (s : SamplingReservoir α) (v : α)
    (h : ∃ m, s.sample_rate.divisor = 2 ^ m) :
    ∃ m, ((s.sample N v).1).sample_rate.divisor = 2 ^ m := by
  obtain ⟨m, hm⟩ := h
  by_cases hc : (s.sample_rate.counter + 1) % s.sample_rate.divisor = 0
  · rw [sample_fst_accepted α N s v hc]
    dsimp only
    by_cases hf : N ≤ s.inner.iter.iterator_pos ∧
        (s.inner.iter.iterator_pos - N) % (N / 2) = 0
    · rw [if_pos hf]
      exact ⟨m + 1, by dsimp only; rw [hm, Nat.pow_succ]⟩
    · rw [if_neg hf]
      exact ⟨m, by dsimp only; rw [hm]⟩
  · rw [sample_fst_rejected α N s v hc]
    exact ⟨m, by dsimp only; rw [hm]⟩

/-- Claim C10: in every state reachable by a sequence of `sample` calls on a
fresh `SamplingReservoir` of power-of-two capacity, the sampling-rate divisor
is a power of two: it starts at `1 = 2^0` and is only ever multiplied by 2 by
the halving schedule. -/
theorem c10_theorem (α : Type) (e : Nat) (vs : List α) (he : 1 ≤ e) :
    ∃ m, (runState α (2 ^ e) vs).sample_rate.divisor = 2 ^ m := by
  have hgen : ∀ (l : List α) (s : SamplingReservoir α),
      (∃ m, s.sample_rate.divisor = 2 ^ m) →
      ∃ m, (l.foldl (fun s v => (s.sample (2 ^ e) v).1) s).sample_rate.divisor = 2 ^ m := by
    intro l
    induction l with
    | nil => intro s hs; exact hs
    | cons x xs ih =>
      intro s hs
      exact ih _ (divisor_pow_sample α (2 ^ e) s x hs)
  exact hgen vs (SamplingReservoir.new α (2 ^ e)) ⟨0, rfl⟩

/-- Claim C10, witness at `e = 3`, feeding `[5, 7, 9]`. -/
theorem c10_witness :
    (1 ≤ 3) ∧ ∃ m, (runState Nat (2 ^ 3) [5, 7, 9]).sample_rate.divisor = 2 ^ m :=
  ⟨by decide, c10_theorem Nat 3 [5, 7, 9] (by decide)⟩

/-! ## Claim C9 — slot tags are write ordinals

`runEv` replays a run of `sample` calls while keeping a ghost log of write
events `(ordinal, slot, value)`: one entry per accepted observation, in write
order, recording the tag the write stored (`iterator_pos + 1`), the slot the
indexer produced, and the value.  The ghost log changes nothing about the
reservoir itself (`runEv_fst`). -/

lemma lastEventFor_append (evs : List (Nat × Nat × α)) (x : Nat × Nat × α) (slot : Nat) :
    lastEventFor (evs ++ [x]) slot =
      if x.2.1 = slot then some x else lastEventFor evs slot := by
  rw [lastEventFor, List.foldl_append]
  rfl

lemma runEvStep_fst (N : Nat) (acc : SamplingReservoir α × List (Nat × Nat × α)) (v : α) :
    (runEvStep N acc v).1 = (acc.1.sample N v).1 := by
  unfold runEvStep
  cases hh : (acc.1.sample N v).2 <;> simp [hh]

lemma runEv_fst (α : Type) (N : Nat) (vs : List α) : (runEv N vs).1 = runState α N vs := by
  rw [runEv, runState]
  have hgen : ∀ (l : List α) (s : SamplingReservoir α) (evs : List (Nat × Nat × α)),
      (l.foldl (runEvStep N) (s, evs)).1 = l.foldl (fun s v => (s.sample N v).1) s := by
    intro l
    induction l with
    | nil => intro s evs; rfl
    | cons x xs ih =>
      intro s evs
      rw [List.foldl_cons, List.foldl_cons]
      have h1 := ih (runEvStep N (s, evs) x).1 (runEvStep N (s, evs) x).2
      have h2 : xs.foldl (fun s v => (s.sample N v).1) ((runEvStep N (s, evs) x).1) =
          xs.foldl (fun s v => (s.sample N v).1) ((s.sample N x).1) := by
        rw [runEvStep_fst N (s, evs) x]
      exact h1.trans h2
  exact hgen vs _ []

lemma write_buf (α : Type) (N : Nat) (r : RawReservoir α) (v : α) :
    (r.write N v).buf =
      r.buf.set ((r.iter.next N).1) (some (r.iter.iterator_pos + 1, v)) := rfl

lemma EvInv_step (α : Type) (N : Nat) (acc : SamplingReservoir α × List (Nat × Nat × α))
    (v : α) (h : EvInv α N acc) : EvInv α N (runEvStep N acc v) := by
  obtain ⟨h1, h2, h3, h4⟩ := h
  by_cases hacc : (acc.1.sample_rate.counter + 1) % acc.1.sample_rate.divisor = 0
  · -- accepted: one write happens and one event is appended
    have hout : (acc.1.sample N v).2 = SamplingOutcome.Consumed :=
      (sample_consumed_iff α N acc.1 v).mpr hacc
    have hstep : runEvStep N acc v = ((acc.1.sample N v).1,
        acc.2 ++ [(acc.1.inner.iter.iterator_pos + 1, (acc.1.inner.iter.next N).1, v)]) := by
      simp only [runEvStep]
      rw [hout]
    have hfst := sample_fst_accepted α N acc.1 v hacc
    rw [hstep, hfst]
    refine ⟨?_, ?_, ?_, ?_⟩
    · show ((acc.1.inner.write N v).buf).length = N
      rw [write_buf, List.length_set]
      exact h1
    · show ((acc.1.inner.write N v).iter).iterator_pos = _
      rw [write_iter_pos, List.length_append, h2]
      rfl
    · intro i ev hev
      dsimp only at hev
      rcases Nat.lt_or_ge i acc.2.length with hi | hi
      · rw [List.getElem?_append_left hi] at hev
        exact h3 i ev hev
      · rcases Nat.eq_or_lt_of_le hi with heq | hlt
        · rw [← heq] at hev
          rw [List.getElem?_concat_length] at hev
          have hev2 : (acc.2.length + 1, (acc.1.inner.iter.next N).1, v) = ev := by
            have := hev
            rw [h2] at this
            exact Option.some.inj this
          rw [← hev2, ← heq]
        · rw [List.getElem?_eq_none (by simp; omega)] at hev
          exact absurd hev (by simp)
    · intro s' t v' hbuf
      dsimp only at hbuf ⊢
      rw [write_buf] at hbuf
      by_cases hss : s' = (acc.1.inner.iter.next N).1
      · by_cases hlt : s' < acc.1.inner.buf.length
        · rw [hss] at hbuf
          rw [List.getElem?_set_self (by rw [← hss]; exact hlt)] at hbuf
          simp only [Option.some.injEq, Prod.mk.injEq] at hbuf
          obtain ⟨hbt, hbv⟩ := hbuf
          subst hbt
          subst hbv
          constructor
          · rw [hss, lastEventFor_append, if_pos rfl]
          · rw [hss, Nat.add_sub_cancel, h2, List.getElem?_concat_length]
        · exfalso
          have hlen2 : (acc.1.inner.buf.set ((acc.1.inner.iter.next N).1)
              (some (acc.1.inner.iter.iterator_pos + 1, v))).length ≤ s' := by
            rw [List.length_set]
            omega
          rw [hss] at hbuf
          rw [hss] at hlen2
          rw [List.getElem?_eq_none hlen2] at hbuf
          exact absurd hbuf (by simp)
      · rw [List.getElem?_set_ne (fun hc => hss hc.symm)] at hbuf
        obtain ⟨hlast, hidx⟩ := h4 s' t v' hbuf
        refine ⟨?_, ?_⟩
        · rw [lastEventFor_append, if_neg (fun hc => hss hc.symm)]
          exact hlast
        · have hlt2 : t - 1 < acc.2.length := by
            by_contra hc
            push_neg at hc
            rw [List.getElem?_eq_none hc] at hidx
            exact absurd hidx (by simp)
          rw [List.getElem?_append_left hlt2]
          exact hidx
  · -- rejected: nothing changes
    have hout : (acc.1.sample N v).2 = SamplingOutcome.Discarded v := by
      rw [sample_snd, if_neg hacc]
    have hstep : runEvStep N acc v = ((acc.1.sample N v).1, acc.2) := by
      simp only [runEvStep]
      rw [hout]
    have hfst := sample_fst_rejected α N acc.1 v hacc
    rw [hstep, hfst]
    exact ⟨h1, h2, h3, h4⟩

lemma EvInv_runEv (α : Type) (N : Nat) (vs : List α) : EvInv α N (runEv N vs) := by
  rw [runEv]
  have hgen : ∀ (l : List α) (acc : SamplingReservoir α × List (Nat × Nat × α)),
      EvInv α N acc → EvInv α N (l.foldl (runEvStep N) acc) := by
    intro l
    induction l with
    | nil => intro acc hacc; exact hacc
    | cons x xs ih =>
      intro acc hacc
      exact ih _ (EvInv_step α N acc x hacc)
  apply hgen
  refine ⟨?_, rfl, ?_, ?_⟩
  · exact List.length_replicate N none
  · intro i ev hev
    exact absurd hev (by simp)
  · intro slot t v hbuf
    exfalso
    rcases Nat.lt_or_ge slot N with hs | hs
    · have : (List.replicate N (none : Option (Nat × α)))[slot]? = some none := by
        simp [List.getElem?_replicate, hs]
      rw [show (SamplingReservoir.new α N).inner.buf = List.replicate N none from rfl] at hbuf
      rw [this] at hbuf
      exact absurd (Option.some.inj hbuf) (by simp)
    · have : (List.replicate N (none : Option (Nat × α)))[slot]? = none :=
        List.getElem?_eq_none (by simp; omega)
      rw [show (SamplingReservoir.new α N).inner.buf = List.replicate N none from rfl] at hbuf
      rw [this] at hbuf
      exact absurd hbuf (by simp)

/-- Claim C9, amended: in every state reachable by a sequence of `sample`
calls on a fresh `SamplingReservoir` of capacity `N = 2^e`, every occupied
slot's tag `t` equals the 1-based AcceptedCount ordinal of the last write into
that slot: the `t`-th write event ever performed wrote this very value into
this very slot, no later write touched the slot, and `t` is at most the total
write count.  (The tag is not the GlobalIndex among all presented
observations: see `c9_counterexample`.) -/
theorem c9_theorem (α : Type) (e : Nat) (vs : List α) (slot t : Nat) (v : α) (he : 1 ≤ e)
    (h : (runState α (2 ^ e) vs).inner.buf[slot]? = some (some (t, v))) :
    lastEventFor (runEv (2 ^ e) vs).2 slot = some (t, slot, v) ∧
      ((runEv (2 ^ e) vs).2)[t - 1]? = some (t, slot, v) ∧
      1 ≤ t ∧ t ≤ (runState α (2 ^ e) vs).inner.iter.iterator_pos := by
  obtain ⟨h1, h2, h3, h4⟩ := EvInv_runEv α (2 ^ e) vs
  rw [← runEv_fst α (2 ^ e) vs] at h
  obtain ⟨hlast, hidx⟩ := h4 slot t v h
  have ht := h3 (t - 1) (t, slot, v) hidx
  have htlen : t - 1 < (runEv (2 ^ e) vs).2.length := by
    by_contra hc
    push_neg at hc
    rw [List.getElem?_eq_none hc] at hidx
    exact absurd hidx (by simp)
  refine ⟨hlast, hidx, by omega, ?_⟩
  rw [← runEv_fst α (2 ^ e) vs, h2]
  omega

/-- Claim C9, witness for the amended theorem: `N = 8`, values `0..17`,
slot 2 holds value 16 with tag 13 (the 13th write). -/
theorem c9_witness :
    ((1 ≤ 3) ∧ (runState Nat (2 ^ 3) (List.range 17)).inner.buf[2]? = some (some (13, 16))) ∧
      (lastEventFor (runEv (2 ^ 3) (List.range 17)).2 2 = some (13, 2, 16) ∧
        ((runEv (2 ^ 3) (List.range 17)).2)[13 - 1]? = some (13, 2, 16) ∧
        1 ≤ 13 ∧ 13 ≤ (runState Nat (2 ^ 3) (List.range 17)).inner.iter.iterator_pos) :=
  ⟨⟨by decide, by decide⟩, c9_theorem Nat 3 (List.range 17) 2 13 16 (by decide) (by decide)⟩

end InfinitySampler
